import Mathlib

/-!
Verification of gotimer: the expiry queue and the scheduler loop.

A shallow embedding of `event.go` and `timer.go` together with the
`container/heap` routines (`Push`, `Pop`, `Remove`, `up`, `down`) that the
scheduler calls on its `eventQueue`.

Modelling conventions.

* `time.Time` instants and `time.Duration` values are integers (nanoseconds);
  `Before`/`After` are `<`/`>` and `Time.Add` is `+`.
* Go `int` values (`seq`, `index`, `sequence`) are integers; slice positions
  are naturals.  The `j1 < 0` overflow guard of `heap.down` can only fire for
  positions above `2^62`, which no slice of pointers reaches, so it is omitted.
* An `eventQueue` is a `[]*event`.  Every pointer stored in a queue is a fresh
  allocation (`GenTimer`, `e := <-t.add`) and an event popped by `runTimeout`
  is re-pushed only after it left the queue, so the pointers resident in one
  queue are pairwise distinct and a slot is modelled by the record it points
  to.  The mutable `index` field is the only field the heap routines write;
  `detach` forgets it, so two records denote the same event exactly when
  their `detach` images agree.
* A Go panic (indexing outside the slice) is the `none` result.
* Loops are structurally recursive on a fuel argument; for `up` and `down`
  the fuel supplied by the caller is proved sufficient (`upLoop_fuel`,
  `downLoop_fuel`).  The loop of `runTimeout` need not end, so `scan` reports
  `status.unfinished`, with the invocations launched so far, when the fuel is
  used up.
* `Register` reads the methods of an object through `reflect`; the object is
  given by the name of its type and the list of its methods, each with the
  types of its inputs (receiver first) and of its results.
* `AddOneshotTimer` samples `time.Now()` and `AddTimer` samples it again; the
  two readings are separate parameters.  Its interval is `datatime.Sub(now)`,
  which saturates at the bounds of `time.Duration` (`timeSub`).
-/

set_option autoImplicit false

namespace gotimer

/-- A Go `interface{}` value: its dynamic type and its payload. -/
structure Iface where
  typ : String
  val : Int
deriving DecidableEq

/-- The `event` struct of `event.go`; `interval` is a `time.Duration` and
`expire` a `time.Time`, both in nanoseconds. -/
structure event where
  seq : Int
  index : Int
  name : String
  arg : Iface
  interval : Int
  isRepeat : Bool
  expire : Int
deriving DecidableEq

/-- The `eventQueue` slice of `event.go`. -/
abbrev eventQueue := List event

/-- The event with its heap bookkeeping field forgotten (`index = -1`, the
value a non-resident event carries). -/
def detach (e : event) : event := { e with index := -1 }

/-- `eventQueue.Len`. -/
def eventQueue.Len (q : eventQueue) : Nat := q.length

/-- `eventQueue.Less`: `q[i].expire.Before(q[j].expire)`. -/
def eventQueue.Less (q : eventQueue) (i j : Nat) : Bool :=
  match q[i]?, q[j]? with
  | some a, some b => decide (a.expire < b.expire)
  | _, _ => false

/-- `eventQueue.Swap`: exchange the two slots, then store each slot's position
in the `index` field of the event now in it. -/
def eventQueue.Swap (q : eventQueue) (i j : Nat) : eventQueue :=
  match q[i]?, q[j]? with
  | some a, some b => (q.set i { b with index := i }).set j { a with index := j }
  | _, _ => q

/-- `eventQueue.Push`: set `e.index = len(q)` and append. -/
def eventQueue.Push (q : eventQueue) (e : event) : eventQueue :=
  q ++ [{ e with index := q.length }]

/-- `eventQueue.Pop`: detach the last event (`index = -1`) and shrink the
slice by one; indexing an empty slice panics. -/
def eventQueue.Pop (q : eventQueue) : Option (event × eventQueue) :=
  match q[q.length - 1]? with
  | some e => some ({ e with index := -1 }, q.take (q.length - 1))
  | none => none

/-- The loop of `heap.up`; the parent of `j` is `(j - 1) / 2`, which is `0`
for `j = 0` both in Go (truncated division of `-1`) and here. -/
def heap.upLoop : Nat → eventQueue → Nat → eventQueue
  | 0, q, _ => q
  | fuel + 1, q, j =>
    let i := (j - 1) / 2
    if i = j ∨ eventQueue.Less q j i = false then q
    else heap.upLoop fuel (eventQueue.Swap q i j) i

/-- `heap.up`: each iteration strictly decreases `j`, so `j + 1` iterations
are enough. -/
def heap.up (q : eventQueue) (j : Nat) : eventQueue :=
  heap.upLoop (j + 1) q j

/-- The loop of `heap.down`, returning the queue and the final position. -/
def heap.downLoop : Nat → eventQueue → Nat → Nat → eventQueue × Nat
  | 0, q, i, _ => (q, i)
  | fuel + 1, q, i, n =>
    let j1 := 2 * i + 1
    if n ≤ j1 then (q, i)
    else
      let j := if j1 + 1 < n ∧ eventQueue.Less q (j1 + 1) j1 = true then j1 + 1 else j1
      if eventQueue.Less q j i = false then (q, i)
      else heap.downLoop fuel (eventQueue.Swap q i j) j n

/-- `heap.down`: the result `i > i0` says whether the element moved.  Each
iteration strictly increases `i` below `n`, so `n` iterations are enough. -/
def heap.down (q : eventQueue) (i0 n : Nat) : eventQueue × Bool :=
  let r := heap.downLoop n q i0 n
  (r.1, decide (i0 < r.2))

/-- `heap.Push`. -/
def heap.Push (q : eventQueue) (x : event) : eventQueue :=
  let q1 := eventQueue.Push q x
  heap.up q1 (q1.length - 1)

/-- `heap.Pop`; on an empty queue `Swap(0, -1)` panics. -/
def heap.Pop (q : eventQueue) : Option (event × eventQueue) :=
  if q.length = 0 then none
  else
    let n := q.length - 1
    let q1 := eventQueue.Swap q 0 n
    eventQueue.Pop (heap.down q1 0 n).1

/-- `heap.Remove`; an index outside the slice panics in `Swap` (or in `Pop`
when the queue is empty). -/
def heap.Remove (q : eventQueue) (i : Int) : Option (event × eventQueue) :=
  if i < 0 ∨ (q.length : Int) ≤ i then none
  else
    let n := q.length - 1
    let k := i.toNat
    if n ≠ k then
      let q1 := eventQueue.Swap q k n
      let r := heap.down q1 k n
      if r.2 = false then eventQueue.Pop (heap.up r.1 k)
      else eventQueue.Pop r.1
    else eventQueue.Pop q

/-- The expiry stored at a position (`0` outside the slice). -/
def keyAt (q : eventQueue) (i : Nat) : Int :=
  match q[i]? with
  | some e => e.expire
  | none => 0

/-- Heap order on the first `n` slots: no slot's parent expires after it. -/
def heapOrderedUpTo (q : eventQueue) (n : Nat) : Prop :=
  ∀ k, 0 < k → k < n → keyAt q ((k - 1) / 2) ≤ keyAt q k

/-- The heap property of a queue: each parent's `expire` is not after the
`expire` of either child (the children of slot `i` are `2i+1` and `2i+2`). -/
def heapOrdered (q : eventQueue) : Prop :=
  ∀ i, i < q.length →
    (2 * i + 1 < q.length → keyAt q i ≤ keyAt q (2 * i + 1)) ∧
    (2 * i + 2 < q.length → keyAt q i ≤ keyAt q (2 * i + 2))

instance (q : eventQueue) : Decidable (heapOrdered q) :=
  inferInstanceAs (Decidable (∀ i, i < q.length →
    (2 * i + 1 < q.length → keyAt q i ≤ keyAt q (2 * i + 1)) ∧
    (2 * i + 2 < q.length → keyAt q i ≤ keyAt q (2 * i + 2))))

/-- The index invariant: every resident event's `index` is its position. -/
def indexOk (q : eventQueue) : Prop :=
  ∀ (k : Nat) (e : event), q[k]? = some e → e.index = (k : Int)

/-! ## Predicates used in the proofs about `up` and `down` -/

/-- The queue `q2` rearranges the slots below `m` of `q1`: same length, same
events up to the `index` field, the index invariant is kept, and the slots
from `m` on are untouched. -/
def Shuffled (q1 q2 : eventQueue) (m : Nat) : Prop :=
  q2.length = q1.length ∧ (q2.map detach).Perm (q1.map detach) ∧
    (indexOk q1 → indexOk q2) ∧ ∀ k, m ≤ k → q2[k]? = q1[k]?

/-- The child that `heap.down` compares with slot `i`: the right child when it
lies below `n` and is `Less` than the left child, else the left child. -/
def minChild (q : eventQueue) (i n : Nat) : Nat :=
  if 2 * i + 1 + 1 < n ∧ eventQueue.Less q (2 * i + 1 + 1) (2 * i + 1) = true
  then 2 * i + 1 + 1 else 2 * i + 1

/-- Heap order on the first `n` slots except possibly between slot `j` and its
parent, with the parent of `j` already below the children of `j`. -/
def upInv (q : eventQueue) (n j : Nat) : Prop :=
  (∀ k, 0 < k → k < n → k ≠ j → keyAt q ((k - 1) / 2) ≤ keyAt q k) ∧
  (∀ k, 0 < k → k < n → (k - 1) / 2 = j → 0 < j → keyAt q ((j - 1) / 2) ≤ keyAt q k)

/-- Heap order on the first `n` slots except possibly between slot `i` and its
children, with the parent of `i` already below the children of `i`. -/
def downInv (q : eventQueue) (n i : Nat) : Prop :=
  (∀ k, 0 < k → k < n → (k - 1) / 2 ≠ i → keyAt q ((k - 1) / 2) ≤ keyAt q k) ∧
  (∀ k, 0 < k → k < n → (k - 1) / 2 = i → 0 < i → keyAt q ((i - 1) / 2) ≤ keyAt q k)

/-- Heap order on the first `n` slots except possibly on the edges at slot
`i` (towards its parent and towards its children), with the parent of `i`
already below the children of `i`: the state right after `heap.Remove` swapped
the last event into slot `i`. -/
def weakInv (q : eventQueue) (n i : Nat) : Prop :=
  (∀ k, 0 < k → k < n → k ≠ i → (k - 1) / 2 ≠ i → keyAt q ((k - 1) / 2) ≤ keyAt q k) ∧
  (∀ k, 0 < k → k < n → (k - 1) / 2 = i → 0 < i → keyAt q ((i - 1) / 2) ≤ keyAt q k)

/-! ## Queues built by the heap operations -/

/-- The queues built from the empty queue by `heap.Push`, `heap.Pop` and
`heap.Remove`. -/
inductive Built : eventQueue → Prop
  | empty : Built []
  | push (q : eventQueue) (x : event) : Built q → Built (heap.Push q x)
  | pop (q : eventQueue) (e : event) (q' : eventQueue) :
      Built q → heap.Pop q = some (e, q') → Built q'
  | remove (q : eventQueue) (i : Int) (e : event) (q' : eventQueue) :
      Built q → heap.Remove q i = some (e, q') → Built q'

/-- The events returned by `n` successive `heap.Pop` calls, in order, with the
queue left behind. -/
def popN : Nat → eventQueue → Option (List event × eventQueue)
  | 0, q => some ([], q)
  | n + 1, q =>
    match heap.Pop q with
    | none => none
    | some (e, q1) =>
      match popN n q1 with
      | none => none
      | some (es, q2) => some (e :: es, q2)

/-- Successive `heap.Remove` calls at the listed indices. -/
def removeAll : eventQueue → List Int → Option eventQueue
  | q, [] => some q
  | q, i :: is =>
    match heap.Remove q i with
    | none => none
    | some (_, q1) => removeAll q1 is

/-- A list of `n` indices, each valid for the queue length at its turn
(`n`, then `n - 1`, ...). -/
def validIndices : Nat → List Int → Prop
  | 0, is => is = []
  | _ + 1, [] => False
  | n + 1, i :: is => 0 ≤ i ∧ i < (n : Int) + 1 ∧ validIndices n is

/-! ## The timer service -/

/-- The `timerHandler` struct of `timer.go`: the receiver, the method and the
type of the method's argument, each by name. -/
structure timerHandler where
  receiver : String
  method : String
  arg : String
deriving DecidableEq

/-- The `timerService` struct of `timer.go`.  `handlers` is the Go map, as an
association list read with `List.lookup`.  The channels `add`, `addret`, `del`
and `done` are the messages of `msg` and the replies collected by `Run`. -/
structure timerService where
  isInit : Bool
  accuracy : Int
  handlers : List (String × timerHandler)
  events : eventQueue
  trash : List Int
  sequence : Int
deriving DecidableEq

/-- The part of `AddTimer` that runs in the caller: the two validations, then
the event sent on `t.add`, built with the caller's `time.Now()`. -/
def timerService.newEvent (t : timerService) (now interval : Int) (isRepeate : Bool)
    (handlerName : String) (args : Iface) : Except String event :=
  if interval < 0 then
    Except.error ("Add timer failed, interval " ++ toString interval ++ " not allow")
  else if (t.handlers.lookup handlerName).isNone then
    Except.error ("unfound timer handler " ++ handlerName)
  else
    Except.ok { seq := 0, index := 0, name := handlerName, arg := args, interval := interval,
                isRepeat := isRepeate, expire := now + interval }

/-- `doAddTimer`: bump the counter, stamp the event, push it, and send the
sequence on `addret` (the second component). -/
def timerService.doAddTimer (t : timerService) (e : event) : timerService × Int :=
  let s := t.sequence + 1
  ({ t with sequence := s, events := heap.Push t.events { e with seq := s } }, s)

/-- `AddTimer` as its caller sees it while the loop is running: either an
error with sequence `0`, or the loop receives the event, runs `doAddTimer`
and the caller gets the sequence back. -/
def timerService.AddTimer (t : timerService) (now interval : Int) (isRepeate : Bool)
    (handlerName : String) (args : Iface) : (Int × Option String) × timerService :=
  match t.newEvent now interval isRepeate handlerName args with
  | Except.error err => ((0, some err), t)
  | Except.ok e => ((( t.doAddTimer e).2, none), (t.doAddTimer e).1)

/-- One round of the outer loop of `doDelTimer`: scan for the first event with
the sequence and `heap.Remove` it at its `index` field. -/
def delOne (q : eventQueue) (seq : Int) : Option eventQueue :=
  match q.find? (fun e => decide (e.seq = seq)) with
  | none => some q
  | some e =>
    match heap.Remove q e.index with
    | none => none
    | some (_, q1) => some q1

/-- The outer loop of `doDelTimer` over the pending sequences. -/
def purge : eventQueue → List Int → Option eventQueue
  | q, [] => some q
  | q, seq :: rest =>
    match delOne q seq with
    | none => none
    | some q1 => purge q1 rest

/-- `doDelTimer`: purge every pending sequence, then `t.trash = t.trash[:0]`. -/
def timerService.doDelTimer (t : timerService) : Option timerService :=
  match purge t.events t.trash with
  | none => none
  | some q => some { t with events := q, trash := [] }

/-- A handler invocation launched by `go func()`: the handler resolved and the
event popped (whose `name` and `arg` the goroutine reads). -/
structure dispatch where
  handler : timerHandler
  ev : event
deriving DecidableEq

/-- How a piece of the loop ended: ready for the next message, returned on
`done`, crashed by a panic, or still inside `runTimeout` when the fuel ran
out. -/
inductive status
  | ok
  | stopped
  | panicked
  | unfinished
deriving DecidableEq

/-- State, launched invocations, values sent on `addret`, and status. -/
structure outcome where
  service : timerService
  launched : List dispatch
  replies : List Int
  st : status
deriving DecidableEq

/-- The assignment `e.expire = now.Add(e.interval)` of `runTimeout`. -/
def rearm (e : event) (now : Int) : event := { e with expire := now + e.interval }

/-- The `for` loop of `runTimeout`, with the invocations launched so far. -/
def timerService.scan : Nat → Int → timerService → List dispatch → outcome
  | 0, _, t, log => ⟨t, log, [], status.unfinished⟩
  | fuel + 1, now, t, log =>
    match t.events[0]? with
    | none => ⟨t, log, [], status.ok⟩
    | some e0 =>
      if e0.expire > now then ⟨t, log, [], status.ok⟩
      else
        match heap.Pop t.events with
        | none => ⟨t, log, [], status.panicked⟩
        | some (e, q) =>
          match t.handlers.lookup e.name with
          | none => timerService.scan fuel now { t with events := q } log
          | some h =>
            if e.isRepeat then
              timerService.scan fuel now { t with events := heap.Push q (rearm e now) }
                (log ++ [⟨h, e⟩])
            else timerService.scan fuel now { t with events := q } (log ++ [⟨h, e⟩])

/-- `runTimeout` with `now := time.Now()` sampled once. -/
def timerService.runTimeout (t : timerService) (fuel : Nat) (now : Int) : outcome :=
  match t.doDelTimer with
  | none => ⟨t, [], [], status.panicked⟩
  | some t1 => timerService.scan fuel now t1 []

/-- What the `select` of `Run` can receive. -/
inductive msg
  | tick (now : Int)
  | add (e : event)
  | del (seq : Int)
  | done
deriving DecidableEq

/-- One iteration of the loop of `Run`. -/
def timerService.step (t : timerService) (fuel : Nat) : msg → outcome
  | msg.tick now => t.runTimeout fuel now
  | msg.add e => ⟨(t.doAddTimer e).1, [], [(t.doAddTimer e).2], status.ok⟩
  | msg.del seq => ⟨{ t with trash := t.trash ++ [seq] }, [], [], status.ok⟩
  | msg.done => ⟨t, [], [], status.stopped⟩

/-- `Run` on the messages it receives, in order; it stops consuming at `done`,
at a panic, or inside a `runTimeout` that does not finish within the fuel. -/
def timerService.Run (fuel : Nat) : timerService → List msg → outcome
  | t, [] => ⟨t, [], [], status.ok⟩
  | t, m :: ms =>
    let o := t.step fuel m
    match o.st with
    | status.ok =>
      let r := timerService.Run fuel o.service ms
      ⟨r.service, o.launched ++ r.launched, o.replies ++ r.replies, r.st⟩
    | _ => o

/-- The sequences of the resident events, by position. -/
def seqs (q : eventQueue) : List Int := q.map event.seq

/-- The invariant of the loop's state: the queue is heap-ordered, every `index`
field is right, resident sequences are pairwise distinct and none exceeds the
counter. -/
def Inv (t : timerService) : Prop :=
  heapOrdered t.events ∧ indexOk t.events ∧ (seqs t.events).Nodup ∧
    ∀ x ∈ seqs t.events, x ≤ t.sequence

/-- Whether a message is an add request. -/
def msg.isAdd : msg → Bool
  | msg.add _ => true
  | _ => false

/-! ## Reachable states and cancellation -/

/-- The states the loop can be in: it starts with an empty queue and counter
`0` and then consumes messages. -/
inductive Reachable : timerService → Prop
  | start (t : timerService) : t.events = [] → t.sequence = 0 → Reachable t
  | step (t : timerService) (fuel : Nat) (m : msg) :
      Reachable t → Reachable (t.step fuel m).service

/-- Sequence `s` has been issued and is either pending deletion or no longer
resident. -/
def Cancelled (s : Int) (t : timerService) : Prop :=
  Inv t ∧ s ≤ t.sequence ∧ (s ∈ t.trash ∨ s ∉ seqs t.events)

/-! ## Client API and registration -/

/-- `SetAccuracy`: the error result and the service afterwards. -/
def timerService.SetAccuracy (t : timerService) (accuracy : Int) :
    Option String × timerService :=
  if accuracy ≤ 0 then (some "accuracy must bigger than zero", t)
  else (none, { t with accuracy := accuracy })

/-- The largest `time.Duration`, `math.MaxInt64` nanoseconds. -/
def maxDuration : Int := 9223372036854775807

/-- The smallest `time.Duration`, `math.MinInt64` nanoseconds. -/
def minDuration : Int := -9223372036854775808

/-- `Time.Sub`: the difference `t - u` as a `Duration`, and the largest
(smallest) `Duration` when the difference is above (below) what a `Duration`
holds. -/
def timeSub (t u : Int) : Int :=
  if maxDuration < t - u then maxDuration
  else if t - u < minDuration then minDuration
  else t - u

/-- `AddOneshotTimer`: `now` is its own `time.Now()`, `now2` the later one
that `AddTimer` samples; the interval is `datatime.Sub(now)`.  The error text
prints both times in Unix seconds. -/
def timerService.AddOneshotTimer (t : timerService) (now now2 datatime : Int)
    (handlerName : String) (args : Iface) : (Int × Option String) × timerService :=
  if now > datatime then
    ((0, some ("timer expire time " ++ toString (datatime / 1000000000) ++ " before now "
      ++ toString (now / 1000000000))), t)
  else t.AddTimer now2 (timeSub datatime now) false handlerName args

/-- A `reflect.Type` as `Register` uses it: its name and whether it
`Implements(typeOfContext)`. -/
structure goType where
  name : String
  implementsContext : Bool
deriving DecidableEq

/-- A `reflect.Method` of the registered object: its name, the types of its
inputs (the receiver first) and the types of its results. -/
structure goMethod where
  name : String
  ins : List goType
  outs : List goType
deriving DecidableEq

/-- The constant `defaultAccuracy`, 100 milliseconds. -/
def defaultAccuracy : Int := 100 * 1000000

/-- The body of the loop of `Register` for one method: skip a name already
bound, a method without exactly three inputs or exactly one result, or whose
second input does not implement `context.Context`; otherwise bind the name. -/
def registerMethod (receiver : String) (hs : List (String × timerHandler)) (m : goMethod) :
    List (String × timerHandler) :=
  if (hs.lookup m.name).isSome then hs
  else if m.ins.length ≠ 3 then hs
  else if m.outs.length ≠ 1 then hs
  else
    match m.ins[1]?, m.ins[2]? with
    | some ctxType, some argsType =>
      if ctxType.implementsContext = false then hs
      else (m.name, ⟨receiver, m.name, argsType.name⟩) :: hs
    | _, _ => hs

/-- The first-call initialisation of `Register`. -/
def timerService.initOnce (t : timerService) : timerService :=
  if t.isInit = false then
    { isInit := true, accuracy := if t.accuracy = 0 then defaultAccuracy else t.accuracy,
      handlers := [], events := [], trash := [], sequence := t.sequence }
  else t

/-- `Register`: initialise on first call, then go through the methods of the
object; the result is always `nil`. -/
def timerService.Register (t : timerService) (receiver : String) (methods : List goMethod) :
    Option String × timerService :=
  (none, { t.initOnce with
    handlers := methods.foldl (registerMethod receiver) t.initOnce.handlers })

/-! ## Pushing a series of events -/

/-- The loop of `GenTimerQueue`: `heap.Push` of each event in turn. -/
def pushAll (q : eventQueue) (es : List event) : eventQueue :=
  es.foldl heap.Push q

/-- The events in the given order, each with its position (counted from `k`)
in the `index` field. -/
def stamp : Nat → List event → eventQueue
  | _, [] => []
  | k, e :: es => { e with index := k } :: stamp (k + 1) es

/-! ## Due events -/

/-- An event is due at `now` when its `expire` is not after `now`. -/
def due (now : Int) (e : event) : Bool := decide (e.expire ≤ now)

/-- The name of the event is a key of the handler map. -/
def timerService.resolves (t : timerService) (e : event) : Bool :=
  (t.handlers.lookup e.name).isSome

/-! ## States reached through the API -/

/-- The states reached from the zero value of `timerService` by `SetAccuracy`,
`Register`, `AddTimer`, `AddOneshotTimer`, the loop consuming a `DelTimer`
request, and ticks (a tick cut after `fuel` iterations gives the state inside
`runTimeout` at that point). -/
inductive Reached : timerService → Prop
  | zero : Reached ⟨false, 0, [], [], [], 0⟩
  | setAccuracy (t : timerService) (accuracy : Int) :
      Reached t → Reached (t.SetAccuracy accuracy).2
  | register (t : timerService) (receiver : String) (methods : List goMethod) :
      Reached t → Reached (t.Register receiver methods).2
  | addTimer (t : timerService) (now interval : Int) (isRepeate : Bool)
      (handlerName : String) (args : Iface) :
      Reached t → Reached (t.AddTimer now interval isRepeate handlerName args).2
  | addOneshot (t : timerService) (now now2 datatime : Int) (handlerName : String)
      (args : Iface) :
      Reached t → Reached (t.AddOneshotTimer now now2 datatime handlerName args).2
  | delTimer (t : timerService) (seq : Int) :
      Reached t → Reached { t with trash := t.trash ++ [seq] }
  | tick (t : timerService) (fuel : Nat) (now : Int) :
      Reached t → Reached (t.runTimeout fuel now).service

/-- The three checks `Register` makes on a method: three inputs, one result,
and a second input that implements `context.Context`. -/
def goMethod.conforms (m : goMethod) : Prop :=
  m.ins.length = 3 ∧ m.outs.length = 1 ∧
    ∃ c, m.ins[1]? = some c ∧ c.implementsContext = true

/-! ## Sample data -/

/-- A repeating sample event for `CheckTimer1` with the given sequence and
expiry. -/
def sampleEvent (s x : Int) : event :=
  ⟨s, -1, "CheckTimer1", ⟨"int", 10001⟩, 1000, true, x⟩

/-- Three sample events pushed in the order of expiry 30, 10, 20. -/
def sampleQueue : eventQueue :=
  heap.Push (heap.Push (heap.Push [] (sampleEvent 1 30)) (sampleEvent 2 10)) (sampleEvent 3 20)

/-- The handler of `exampleSvr.CheckTimer1`. -/
def sampleHandler : timerHandler := ⟨"exampleSvr", "CheckTimer1", "uint64"⟩

/-- A service right after `Register`, with `CheckTimer1` bound. -/
def sampleService : timerService :=
  ⟨true, 100000000, [("CheckTimer1", sampleHandler)], [], [], 0⟩

/-- The sample service holding the sample queue, with sequences 2 and 7
pending deletion. -/
def sampleLoaded : timerService :=
  ⟨true, 100000000, [("CheckTimer1", sampleHandler)], sampleQueue, [2, 7], 3⟩

/-- The methods of an object like `exampleSvr` with one more method, `Bad`,
whose single result is an `int`, not an `error`. -/
def sampleMethods : List goMethod :=
  [⟨"Bad", [⟨"*exampleSvr", false⟩, ⟨"context.Context", true⟩, ⟨"int", false⟩],
      [⟨"int", false⟩]⟩,
   ⟨"CheckTimer1", [⟨"*exampleSvr", false⟩, ⟨"context.Context", true⟩, ⟨"uint64", false⟩],
      [⟨"error", false⟩]⟩]

/-- The zero value of `timerService`, as `new(timerService)` gives it. -/
def zeroService : timerService := ⟨false, 0, [], [], [], 0⟩

/-- The sample service after `AddTimer(0, true, "CheckTimer1", 7)` was
accepted at time 5: one repeating event with interval 0. -/
def sampleZero : timerService :=
  (sampleService.AddTimer 5 0 true "CheckTimer1" ⟨"uint64", 7⟩).2

/-- The repeating event of `sampleZero` with interval 0, once its expiry is
`now`. -/
def zeroEvent (now : Int) : event :=
  ⟨1, 0, "CheckTimer1", ⟨"uint64", 7⟩, 0, true, now⟩

/-- The state in which the event of `sampleZero` expires at `now`. -/
def stuckAt (now : Int) : timerService :=
  ⟨true, 100000000, [("CheckTimer1", sampleHandler)], [zeroEvent now], [], 1⟩

/-- The state reached from the zero value by registering `sampleMethods` and
arming one repeating timer at time 5. -/
def sampleReached : timerService :=
  ((zeroService.Register "*exampleSvr" sampleMethods).2.AddTimer 5 1000 true "CheckTimer1"
    ⟨"uint64", 7⟩).2

/-! ## Elementary facts about `Swap`, `Less` and `keyAt` -/

theorem getElem?_Swap (q : eventQueue) (i j k : Nat) (a b : event)
    (ha : q[i]? = some a) (hb : q[j]? = some b) :
    (eventQueue.Swap q i j)[k]? =
      if k = j then some { a with index := j }
      else if k = i then some { b with index := i } else q[k]? := by
  have hi : i < q.length := (List.getElem?_eq_some_iff.mp ha).1
  have hj : j < q.length := (List.getElem?_eq_some_iff.mp hb).1
  simp only [eventQueue.Swap, ha, hb]
  by_cases h1 : k = j
  · subst h1
    simp [List.getElem?_set, hj]
  · by_cases h2 : k = i
    · subst h2
      simp [List.getElem?_set, hi, h1, Ne.symm h1]
    · simp [List.getElem?_set, h1, h2, Ne.symm h1, Ne.symm h2]

theorem Swap_length (q : eventQueue) (i j : Nat) :
    (eventQueue.Swap q i j).length = q.length := by
  unfold eventQueue.Swap
  split <;> simp

theorem keyAt_of_getElem? (q : eventQueue) (i : Nat) (a : event) (h : q[i]? = some a) :
    keyAt q i = a.expire := by
  simp [keyAt, h]

theorem keyAt_Swap (q : eventQueue) (i j k : Nat) (hi : i < q.length) (hj : j < q.length) :
    keyAt (eventQueue.Swap q i j) k =
      if k = j then keyAt q i else if k = i then keyAt q j else keyAt q k := by
  have ha : q[i]? = some q[i] := List.getElem?_eq_getElem hi
  have hb : q[j]? = some q[j] := List.getElem?_eq_getElem hj
  unfold keyAt
  rw [getElem?_Swap q i j k _ _ ha hb, ha, hb]
  by_cases h1 : k = j
  · simp [h1]
  · by_cases h2 : k = i
    · rw [if_neg h1, if_pos h2, if_neg h1, if_pos h2]
    · simp [h1, h2]

theorem Less_iff (q : eventQueue) (i j : Nat) (hi : i < q.length) (hj : j < q.length) :
    eventQueue.Less q i j = true ↔ keyAt q i < keyAt q j := by
  have ha : q[i]? = some q[i] := List.getElem?_eq_getElem hi
  have hb : q[j]? = some q[j] := List.getElem?_eq_getElem hj
  simp [eventQueue.Less, keyAt, ha, hb]

theorem Less_false_iff (q : eventQueue) (i j : Nat) (hi : i < q.length) (hj : j < q.length) :
    eventQueue.Less q i j = false ↔ keyAt q j ≤ keyAt q i := by
  have ha : q[i]? = some q[i] := List.getElem?_eq_getElem hi
  have hb : q[j]? = some q[j] := List.getElem?_eq_getElem hj
  simp [eventQueue.Less, keyAt, ha, hb]

/-! ## Rearrangements: what `Swap`, `up` and `down` keep -/

theorem set_set_perm {α : Type} [DecidableEq α] (l : List α) (i j : Nat)
    (hi : i < l.length) (hj : j < l.length) :
    ((l.set i l[j]).set j l[i]).Perm l := by
  rw [List.perm_iff_count]
  intro x
  have hj2 : j < (l.set i l[j]).length := by simpa using hj
  rw [List.count_set _ _ _ _ hj2, List.count_set _ _ _ _ hi]
  have hget : (l.set i l[j])[j] = l[j] := by
    by_cases h : i = j
    · subst h; simp
    · simp [List.getElem_set, h]
  rw [hget]
  have h1 : (if l[i] == x then 1 else 0) ≤ l.count x := by
    by_cases h : l[i] == x
    · have hx : l[i] = x := by simpa using h
      have hmem : x ∈ l := hx ▸ List.getElem_mem hi
      have := List.count_pos_iff.mpr hmem
      rw [if_pos h]; omega
    · rw [if_neg h]; omega
  omega

theorem Shuffled.refl (q : eventQueue) (m : Nat) : Shuffled q q m :=
  ⟨rfl, List.Perm.refl _, id, fun _ _ => rfl⟩

theorem Shuffled.trans {q1 q2 q3 : eventQueue} {m : Nat}
    (h12 : Shuffled q1 q2 m) (h23 : Shuffled q2 q3 m) : Shuffled q1 q3 m :=
  ⟨h23.1.trans h12.1, h23.2.1.trans h12.2.1, fun h => h23.2.2.1 (h12.2.2.1 h),
    fun k hk => (h23.2.2.2 k hk).trans (h12.2.2.2 k hk)⟩

theorem Shuffled.mono {q1 q2 : eventQueue} {m m2 : Nat} (h : Shuffled q1 q2 m)
    (hm : m ≤ m2) : Shuffled q1 q2 m2 :=
  ⟨h.1, h.2.1, h.2.2.1, fun k hk => h.2.2.2 k (le_trans hm hk)⟩

theorem Swap_shuffled (q : eventQueue) (i j m : Nat) (hi : i < m) (hj : j < m) :
    Shuffled q (eventQueue.Swap q i j) m := by
  by_cases hil : i < q.length
  · by_cases hjl : j < q.length
    · have ha : q[i]? = some q[i] := List.getElem?_eq_getElem hil
      have hb : q[j]? = some q[j] := List.getElem?_eq_getElem hjl
      refine ⟨Swap_length q i j, ?_, ?_, ?_⟩
      · have hmi : i < (q.map detach).length := by simpa using hil
        have hmj : j < (q.map detach).length := by simpa using hjl
        have := set_set_perm (q.map detach) i j hmi hmj
        have heq : (eventQueue.Swap q i j).map detach
            = ((q.map detach).set i (q.map detach)[j]).set j (q.map detach)[i] := by
          simp only [eventQueue.Swap, ha, hb, List.map_set, List.getElem_map]
          rfl
        rw [heq]
        exact this
      · intro hq k e hk
        rw [getElem?_Swap q i j k _ _ ha hb] at hk
        by_cases h1 : k = j
        · rw [if_pos h1] at hk
          cases hk
          simp [h1]
        · rw [if_neg h1] at hk
          by_cases h2 : k = i
          · rw [if_pos h2] at hk
            cases hk
            simp [h2]
          · rw [if_neg h2] at hk
            exact hq k e hk
      · intro k hk
        rw [getElem?_Swap q i j k _ _ ha hb]
        have h1 : k ≠ j := by omega
        have h2 : k ≠ i := by omega
        simp [h1, h2]
    · have hb : q[j]? = none := List.getElem?_eq_none (by omega)
      have : eventQueue.Swap q i j = q := by
        unfold eventQueue.Swap
        rw [hb]
        cases q[i]? <;> rfl
      rw [this]
      exact Shuffled.refl q m
  · have ha : q[i]? = none := List.getElem?_eq_none (by omega)
    have : eventQueue.Swap q i j = q := by
      unfold eventQueue.Swap
      rw [ha]
    rw [this]
    exact Shuffled.refl q m

theorem upLoop_shuffled (fuel : Nat) (q : eventQueue) (j m : Nat) (hj : j < m) :
    Shuffled q (heap.upLoop fuel q j) m := by
  induction fuel generalizing q j with
  | zero => exact Shuffled.refl q m
  | succ fuel ih =>
    unfold heap.upLoop
    simp only
    split
    · exact Shuffled.refl q m
    · have hp : (j - 1) / 2 < m := by omega
      exact (Swap_shuffled q _ j m hp hj).trans (ih _ _ hp)

theorem downLoop_succ (fuel : Nat) (q : eventQueue) (i n : Nat) :
    heap.downLoop (fuel + 1) q i n =
      if n ≤ 2 * i + 1 then (q, i)
      else if eventQueue.Less q (minChild q i n) i = false then (q, i)
      else heap.downLoop fuel (eventQueue.Swap q i (minChild q i n)) (minChild q i n) n := rfl

theorem upLoop_succ (fuel : Nat) (q : eventQueue) (j : Nat) :
    heap.upLoop (fuel + 1) q j =
      if (j - 1) / 2 = j ∨ eventQueue.Less q j ((j - 1) / 2) = false then q
      else heap.upLoop fuel (eventQueue.Swap q ((j - 1) / 2) j) ((j - 1) / 2) := rfl

theorem minChild_cases (q : eventQueue) (i n : Nat) :
    minChild q i n = 2 * i + 1 ∨ (minChild q i n = 2 * i + 2 ∧ 2 * i + 2 < n) := by
  unfold minChild
  split
  · rename_i h; exact Or.inr ⟨rfl, h.1⟩
  · exact Or.inl rfl

theorem downLoop_shuffled (fuel : Nat) (q : eventQueue) (i n : Nat) :
    Shuffled q (heap.downLoop fuel q i n).1 n := by
  induction fuel generalizing q i with
  | zero => exact Shuffled.refl q n
  | succ fuel ih =>
    rw [downLoop_succ]
    by_cases hn : n ≤ 2 * i + 1
    · rw [if_pos hn]; exact Shuffled.refl q n
    · rw [if_neg hn]
      by_cases hL : eventQueue.Less q (minChild q i n) i = false
      · rw [if_pos hL]; exact Shuffled.refl q n
      · rw [if_neg hL]
        have hi : i < n := by omega
        have hj : minChild q i n < n := by
          rcases minChild_cases q i n with h | h <;> omega
        exact (Swap_shuffled q i _ n hi hj).trans (ih _ _)

theorem downLoop_ge (fuel : Nat) (q : eventQueue) (i n : Nat) :
    i ≤ (heap.downLoop fuel q i n).2 := by
  induction fuel generalizing q i with
  | zero => exact Nat.le_refl _
  | succ fuel ih =>
    rw [downLoop_succ]
    by_cases hn : n ≤ 2 * i + 1
    · rw [if_pos hn]
    · rw [if_neg hn]
      by_cases hL : eventQueue.Less q (minChild q i n) i = false
      · rw [if_pos hL]
      · rw [if_neg hL]
        have h := ih (eventQueue.Swap q i (minChild q i n)) (minChild q i n)
        rcases minChild_cases q i n with h2 | h2 <;> omega

/-! ## Heap order through `up` -/

theorem upInv_Swap (q : eventQueue) (n j p : Nat) (hpe : (j - 1) / 2 = p)
    (hn : n ≤ q.length) (hj : j < n) (hj0 : 0 < j)
    (hlt : keyAt q j < keyAt q p) (h : upInv q n j) :
    upInv (eventQueue.Swap q p j) n p := by
  have hp : p < j := by omega
  have hpl : p < q.length := by omega
  have hjl : j < q.length := by omega
  constructor
  · intro k hk0 hkn hkp
    rw [keyAt_Swap q p j _ hpl hjl, keyAt_Swap q p j _ hpl hjl]
    by_cases e1 : k = j
    · have hpj : ¬ p = j := by omega
      rw [e1, hpe, if_neg hpj, if_pos rfl, if_pos rfl]
      omega
    · rw [if_neg e1, if_neg hkp]
      have h1 := h.1 k hk0 hkn e1
      by_cases e2 : (k - 1) / 2 = j
      · rw [if_pos e2]
        have h2 := h.2 k hk0 hkn e2 hj0
        rw [hpe] at h2
        exact h2
      · rw [if_neg e2]
        by_cases e3 : (k - 1) / 2 = p
        · rw [if_pos e3]
          rw [e3] at h1
          omega
        · rw [if_neg e3]
          exact h1
  · intro k hk0 hkn hkp hp0
    rw [keyAt_Swap q p j _ hpl hjl, keyAt_Swap q p j _ hpl hjl]
    have hq1 : ¬ (p - 1) / 2 = j := by omega
    have hq2 : ¬ (p - 1) / 2 = p := by omega
    have hq3 : ¬ k = p := by omega
    rw [if_neg hq1, if_neg hq2]
    have hpar := h.1 p hp0 (by omega) (by omega)
    by_cases e1 : k = j
    · rw [if_pos e1]
      exact hpar
    · rw [if_neg e1, if_neg hq3]
      have h1 := h.1 k hk0 hkn e1
      rw [hkp] at h1
      omega

theorem upLoop_heap (fuel : Nat) (q : eventQueue) (j n : Nat) (hn : n ≤ q.length)
    (hj : j < n) (hf : j < fuel) (h : upInv q n j) :
    heapOrderedUpTo (heap.upLoop fuel q j) n := by
  induction fuel generalizing q j with
  | zero => omega
  | succ fuel ih =>
    rw [upLoop_succ]
    have hjl : j < q.length := by omega
    have hpl : (j - 1) / 2 < q.length := by omega
    by_cases hc : (j - 1) / 2 = j ∨ eventQueue.Less q j ((j - 1) / 2) = false
    · rw [if_pos hc]
      intro k hk0 hkn
      by_cases e1 : k = j
      · rcases hc with hc | hc
        · omega
        · rw [e1]
          exact (Less_false_iff q j _ hjl hpl).mp hc
      · exact h.1 k hk0 hkn e1
    · rw [if_neg hc]
      have hj0 : 0 < j := by
        by_contra h0
        exact hc (Or.inl (by omega))
      have hlt : keyAt q j < keyAt q ((j - 1) / 2) := by
        apply (Less_iff q j _ hjl hpl).mp
        cases hL : eventQueue.Less q j ((j - 1) / 2)
        · exact absurd (Or.inr hL) hc
        · rfl
      have hinv := upInv_Swap q n j _ rfl hn hj hj0 hlt h
      exact ih _ _ (by rw [Swap_length]; exact hn) (by omega) (by omega) hinv

/-! ## Heap order through `down` -/

theorem minChild_le (q : eventQueue) (i n : Nat) (hn : n ≤ q.length)
    (k : Nat) (hk0 : 0 < k) (hkn : k < n) (hk : (k - 1) / 2 = i) :
    keyAt q (minChild q i n) ≤ keyAt q k := by
  have hk2 : k = 2 * i + 1 ∨ k = 2 * i + 1 + 1 := by omega
  unfold minChild
  by_cases hm : 2 * i + 1 + 1 < n ∧ eventQueue.Less q (2 * i + 1 + 1) (2 * i + 1) = true
  · rw [if_pos hm]
    have := (Less_iff q _ _ (by omega) (by omega)).mp hm.2
    rcases hk2 with e | e
    · rw [e]; omega
    · rw [e]
  · rw [if_neg hm]
    rcases hk2 with e | e
    · rw [e]
    · rw [e]
      have h2 : 2 * i + 1 + 1 < n := by omega
      have hL : eventQueue.Less q (2 * i + 1 + 1) (2 * i + 1) = false := by
        cases hL : eventQueue.Less q (2 * i + 1 + 1) (2 * i + 1)
        · rfl
        · exact absurd ⟨h2, hL⟩ hm
      exact (Less_false_iff q _ _ (by omega) (by omega)).mp hL

theorem downInv_Swap (q : eventQueue) (n i c : Nat) (hn : n ≤ q.length) (hcn : c < n)
    (hc0 : 0 < c) (hci : (c - 1) / 2 = i) (hlt : keyAt q c < keyAt q i)
    (hmin : ∀ k, 0 < k → k < n → (k - 1) / 2 = i → keyAt q c ≤ keyAt q k)
    (h : downInv q n i) : downInv (eventQueue.Swap q i c) n c := by
  have hic : i < c := by omega
  have hil : i < q.length := by omega
  have hcl : c < q.length := by omega
  constructor
  · intro k hk0 hkn hkp
    rw [keyAt_Swap q i c _ hil hcl, keyAt_Swap q i c _ hil hcl]
    rw [if_neg hkp]
    by_cases e1 : k = c
    · rw [if_pos e1]
      rw [e1, hci, if_pos rfl]
      omega
    · rw [if_neg e1]
      by_cases e2 : k = i
      · rw [if_pos e2]
        have hi0 : 0 < i := by omega
        have hq1 : ¬ (k - 1) / 2 = i := by omega
        rw [if_neg hq1]
        have h2 := h.2 c hc0 hcn hci hi0
        rw [e2]
        exact h2
      · rw [if_neg e2]
        by_cases e3 : (k - 1) / 2 = i
        · rw [if_pos e3]
          exact hmin k hk0 hkn e3
        · rw [if_neg e3]
          exact h.1 k hk0 hkn e3
  · intro k hk0 hkn hkp _
    rw [keyAt_Swap q i c _ hil hcl, keyAt_Swap q i c _ hil hcl]
    have hq1 : ¬ (c - 1) / 2 = c := by omega
    have hq2 : ¬ k = c := by omega
    have hq3 : ¬ k = i := by omega
    rw [if_neg hq1, if_pos hci, if_neg hq2, if_neg hq3]
    have h1 := h.1 k hk0 hkn (by omega)
    rw [hkp] at h1
    exact h1

theorem downLoop_heap (fuel : Nat) (q : eventQueue) (i n : Nat) (hn : n ≤ q.length)
    (hf : n - i ≤ fuel) (h : downInv q n i) :
    heapOrderedUpTo (heap.downLoop fuel q i n).1 n := by
  induction fuel generalizing q i with
  | zero =>
    intro k hk0 hkn
    exact h.1 k hk0 hkn (by omega)
  | succ fuel ih =>
    rw [downLoop_succ]
    by_cases hc : n ≤ 2 * i + 1
    · rw [if_pos hc]
      intro k hk0 hkn
      exact h.1 k hk0 hkn (by omega)
    · rw [if_neg hc]
      have hcn : minChild q i n < n := by
        rcases minChild_cases q i n with e | e <;> omega
      have hci : (minChild q i n - 1) / 2 = i := by
        rcases minChild_cases q i n with e | e <;> omega
      have hc0 : 0 < minChild q i n := by
        rcases minChild_cases q i n with e | e <;> omega
      have hmin := minChild_le q i n hn
      by_cases hL : eventQueue.Less q (minChild q i n) i = false
      · rw [if_pos hL]
        have hle := (Less_false_iff q _ _ (by omega) (by omega)).mp hL
        show heapOrderedUpTo q n
        intro k hk0 hkn
        by_cases e : (k - 1) / 2 = i
        · rw [e]
          have := hmin k hk0 hkn e
          omega
        · exact h.1 k hk0 hkn e
      · rw [if_neg hL]
        have hlt : keyAt q (minChild q i n) < keyAt q i := by
          apply (Less_iff q _ _ (by omega) (by omega)).mp
          cases hL2 : eventQueue.Less q (minChild q i n) i
          · exact absurd hL2 hL
          · rfl
        have hinv := downInv_Swap q n i _ hn hcn hc0 hci hlt hmin h
        exact ih _ _ (by rw [Swap_length]; exact hn) (by omega) hinv

/-! ## `down` followed by `up`, as `heap.Remove` uses them -/

theorem downLoop_weak (fuel : Nat) (q : eventQueue) (i n : Nat) (hn : n ≤ q.length)
    (hi : i < n) (hf : n - i ≤ fuel) (h : weakInv q n i) :
    ((heap.downLoop fuel q i n).2 = i ∧ (heap.downLoop fuel q i n).1 = q ∧
        ∀ k, 0 < k → k < n → (k - 1) / 2 = i → keyAt q i ≤ keyAt q k) ∨
      (i < (heap.downLoop fuel q i n).2 ∧ heapOrderedUpTo (heap.downLoop fuel q i n).1 n) := by
  cases fuel with
  | zero => omega
  | succ fuel =>
    rw [downLoop_succ]
    by_cases hc : n ≤ 2 * i + 1
    · rw [if_pos hc]
      exact Or.inl ⟨rfl, rfl, fun k hk0 hkn hk => by omega⟩
    · rw [if_neg hc]
      have hcn : minChild q i n < n := by
        rcases minChild_cases q i n with e | e <;> omega
      have hci : (minChild q i n - 1) / 2 = i := by
        rcases minChild_cases q i n with e | e <;> omega
      have hc0 : 0 < minChild q i n := by
        rcases minChild_cases q i n with e | e <;> omega
      have hmin := minChild_le q i n hn
      by_cases hL : eventQueue.Less q (minChild q i n) i = false
      · rw [if_pos hL]
        have hle := (Less_false_iff q _ _ (by omega) (by omega)).mp hL
        refine Or.inl ⟨rfl, rfl, fun k hk0 hkn hk => ?_⟩
        have := hmin k hk0 hkn hk
        omega
      · rw [if_neg hL]
        have hlt : keyAt q (minChild q i n) < keyAt q i := by
          apply (Less_iff q _ _ (by omega) (by omega)).mp
          cases hL2 : eventQueue.Less q (minChild q i n) i
          · exact absurd hL2 hL
          · rfl
        have hd : downInv q n i := by
          refine ⟨fun k hk0 hkn hk => ?_, h.2⟩
          by_cases e : k = i
          · have hi0 : 0 < i := by omega
            have := h.2 _ hc0 hcn hci hi0
            rw [e]
            omega
          · exact h.1 k hk0 hkn e hk
        have hinv := downInv_Swap q n i _ hn hcn hc0 hci hlt hmin hd
        have hge := downLoop_ge fuel (eventQueue.Swap q i (minChild q i n)) (minChild q i n) n
        refine Or.inr ⟨by omega, ?_⟩
        exact downLoop_heap fuel _ _ n (by rw [Swap_length]; exact hn) (by omega) hinv

/-! ## From the first `n` slots to the shrunk slice -/

theorem heapOrdered_iff (q : eventQueue) : heapOrdered q ↔ heapOrderedUpTo q q.length := by
  constructor
  · intro h k hk0 hkn
    have hk : k = 2 * ((k - 1) / 2) + 1 ∨ k = 2 * ((k - 1) / 2) + 2 := by omega
    have hp := h ((k - 1) / 2) (by omega)
    rcases hk with e | e
    · have := hp.1 (by omega)
      rw [← e] at this
      exact this
    · have := hp.2 (by omega)
      rw [← e] at this
      exact this
  · intro h i _
    constructor
    · intro hj
      have := h (2 * i + 1) (by omega) hj
      have e : (2 * i + 1 - 1) / 2 = i := by omega
      rw [e] at this
      exact this
    · intro hj
      have := h (2 * i + 2) (by omega) hj
      have e : (2 * i + 2 - 1) / 2 = i := by omega
      rw [e] at this
      exact this

theorem keyAt_take (q : eventQueue) (n k : Nat) (hk : k < n) :
    keyAt (q.take n) k = keyAt q k := by
  unfold keyAt
  rw [List.getElem?_take_of_lt hk]

theorem heapOrdered_take (q : eventQueue) (n : Nat) (hn : n ≤ q.length)
    (h : heapOrderedUpTo q n) : heapOrdered (q.take n) := by
  rw [heapOrdered_iff]
  intro k hk0 hkn
  have hlen : (q.take n).length = n := by simp [hn]
  rw [hlen] at hkn
  rw [keyAt_take q n _ (by omega), keyAt_take q n _ hkn]
  exact h k hk0 hkn

theorem indexOk_take (q : eventQueue) (n : Nat) (h : indexOk q) : indexOk (q.take n) := by
  intro k e hk
  by_cases hkn : k < n
  · rw [List.getElem?_take_of_lt hkn] at hk
    exact h k e hk
  · have : (q.take n)[k]? = none := by
      apply List.getElem?_eq_none
      have := List.length_take_le n q
      omega
    rw [this] at hk
    cases hk

theorem take_append_last (q : eventQueue) (n : Nat) (e : event) (hlen : q.length = n + 1)
    (he : q[n]? = some e) : q = q.take n ++ [e] := by
  have h2 : q.take (n + 1) = q := List.take_of_length_le (by omega)
  have h3 : q.take (n + 1) = q.take n ++ q[n]?.toList := List.take_succ
  rw [h2, he] at h3
  exact h3

/-- What `eventQueue.Pop` does to a queue of `n + 1` events. -/
theorem Pop_last (q : eventQueue) (n : Nat) (e : event) (hlen : q.length = n + 1)
    (he : q[n]? = some e) :
    eventQueue.Pop q = some (detach e, q.take n) ∧
      (detach e :: (q.take n).map detach).Perm (q.map detach) := by
  constructor
  · unfold eventQueue.Pop
    have : q.length - 1 = n := by omega
    rw [this, he]
    rfl
  · have h := take_append_last q n e hlen he
    have h2 : q.map detach = (q.take n).map detach ++ [detach e] := by
      conv => lhs; rw [h]
      simp
    rw [h2]
    exact (List.perm_append_singleton _ _).symm

/-! ## The three heap operations -/

theorem Remove_finish (q q3 : eventQueue) (n : Nat) (e : event) (hlen : q.length = n + 1)
    (hS : Shuffled q q3 (n + 1)) (hlast : ∃ e1, q3[n]? = some e1 ∧ detach e1 = detach e)
    (hH : heapOrdered q → heapOrderedUpTo q3 n) :
    ∃ q', eventQueue.Pop q3 = some (detach e, q') ∧ q'.length + 1 = q.length ∧
      (detach e :: q'.map detach).Perm (q.map detach) ∧ (indexOk q → indexOk q') ∧
      (heapOrdered q → heapOrdered q') := by
  obtain ⟨e1, he1, hd⟩ := hlast
  have hlen3 : q3.length = n + 1 := hS.1.trans hlen
  obtain ⟨h1, h2⟩ := Pop_last q3 n e1 hlen3 he1
  rw [hd] at h1 h2
  refine ⟨q3.take n, h1, ?_, h2.trans hS.2.1, fun h => indexOk_take q3 n (hS.2.2.1 h),
    fun h => heapOrdered_take q3 n (by omega) (hH h)⟩
  rw [List.length_take, hlen3, hlen]
  omega

theorem weakInv_Swap_last (q : eventQueue) (n k : Nat) (hlen : q.length = n + 1)
    (hk : k < n) (h : heapOrdered q) : weakInv (eventQueue.Swap q k n) n k := by
  have hU := (heapOrdered_iff q).mp h
  have hkl : k < q.length := by omega
  have hnl : n < q.length := by omega
  constructor
  · intro x hx0 hxn hxk hpk
    have e1 : ¬ (x - 1) / 2 = n := by omega
    have e2 : ¬ x = n := by omega
    rw [keyAt_Swap q k n _ hkl hnl, keyAt_Swap q k n _ hkl hnl, if_neg e1, if_neg hpk,
      if_neg e2, if_neg hxk]
    exact hU x hx0 (by omega)
  · intro x hx0 hxn hpk hk0
    have e1 : ¬ (k - 1) / 2 = n := by omega
    have e2 : ¬ (k - 1) / 2 = k := by omega
    have e3 : ¬ x = n := by omega
    have e4 : ¬ x = k := by omega
    rw [keyAt_Swap q k n _ hkl hnl, keyAt_Swap q k n _ hkl hnl, if_neg e1, if_neg e2,
      if_neg e3, if_neg e4]
    have a1 := hU k hk0 (by omega)
    have a2 := hU x hx0 (by omega)
    rw [hpk] at a2
    omega

/-- The contract of `heap.Remove` at a valid position `k` holding event `e`:
it returns `e` detached, and the remaining queue is one shorter, holds the
other events, keeps the index invariant and keeps heap order. -/
theorem Remove_spec (q : eventQueue) (k : Nat) (e : event) (he : q[k]? = some e) :
    ∃ q', heap.Remove q (k : Int) = some (detach e, q') ∧ q'.length + 1 = q.length ∧
      (detach e :: q'.map detach).Perm (q.map detach) ∧ (indexOk q → indexOk q') ∧
      (heapOrdered q → heapOrdered q') := by
  have hk : k < q.length := (List.getElem?_eq_some_iff.mp he).1
  obtain ⟨n, hlen⟩ : ∃ n, q.length = n + 1 := ⟨q.length - 1, by omega⟩
  have hguard : ¬ ((k : Int) < 0 ∨ (q.length : Int) ≤ k) := by omega
  unfold heap.Remove
  rw [if_neg hguard]
  have hn1 : q.length - 1 = n := by omega
  simp only [Int.toNat_ofNat, hn1]
  by_cases hkn : n = k
  · rw [if_neg (not_not.mpr hkn)]
    subst hkn
    exact Remove_finish q q n e hlen (Shuffled.refl q _) ⟨e, he, rfl⟩
      (fun h x hx0 hxn => (heapOrdered_iff q).mp h x hx0 (by omega))
  · rw [if_pos hkn]
    have hkn2 : k < n := by omega
    have hnl : n < q.length := by omega
    have hb : q[n]? = some q[n] := List.getElem?_eq_getElem hnl
    have hS1 : Shuffled q (eventQueue.Swap q k n) (n + 1) :=
      Swap_shuffled q k n (n + 1) (by omega) (by omega)
    have hlen1 : (eventQueue.Swap q k n).length = n + 1 := by rw [Swap_length]; exact hlen
    have hq1n : (eventQueue.Swap q k n)[n]? = some { e with index := n } := by
      rw [getElem?_Swap q k n n _ _ he hb, if_pos rfl]
    have hS2 : Shuffled (eventQueue.Swap q k n) (heap.downLoop n (eventQueue.Swap q k n) k n).1 n :=
      downLoop_shuffled _ _ _ _
    have hW := downLoop_weak n (eventQueue.Swap q k n) k n (by omega) hkn2 (by omega)
    by_cases hm : (heap.down (eventQueue.Swap q k n) k n).2 = false
    · rw [if_pos hm]
      have hnm : ¬ k < (heap.downLoop n (eventQueue.Swap q k n) k n).2 := by
        simpa [heap.down] using hm
      have hS3 : Shuffled (heap.downLoop n (eventQueue.Swap q k n) k n).1
          (heap.up (heap.down (eventQueue.Swap q k n) k n).1 k) n :=
        upLoop_shuffled _ _ _ _ hkn2
      have hS := hS2.trans hS3
      refine Remove_finish q _ n e hlen (hS1.trans (hS.mono (by omega)))
        ⟨_, (hS.2.2.2 n (le_refl n)).trans hq1n, rfl⟩ ?_
      intro h
      have hw := weakInv_Swap_last q n k hlen hkn2 h
      rcases hW hw with ⟨_, hq, hch⟩ | ⟨hlt, _⟩
      · have hd1 : (heap.down (eventQueue.Swap q k n) k n).1 = eventQueue.Swap q k n := hq
        rw [hd1]
        apply upLoop_heap (k + 1) _ k n (by omega) hkn2 (by omega)
        refine ⟨fun x hx0 hxn hxk => ?_, hw.2⟩
        by_cases e1 : (x - 1) / 2 = k
        · rw [e1]
          exact hch x hx0 hxn e1
        · exact hw.1 x hx0 hxn hxk e1
      · exact absurd hlt hnm
    · rw [if_neg hm]
      have hmv : k < (heap.downLoop n (eventQueue.Swap q k n) k n).2 := by
        simpa [heap.down] using hm
      refine Remove_finish q _ n e hlen (hS1.trans (hS2.mono (by omega)))
        ⟨_, (hS2.2.2.2 n (le_refl n)).trans hq1n, rfl⟩ ?_
      intro h
      have hw := weakInv_Swap_last q n k hlen hkn2 h
      rcases hW hw with ⟨heq, _, _⟩ | ⟨_, hh⟩
      · omega
      · exact hh

theorem upLoop_zero_pos (fuel : Nat) (q : eventQueue) : heap.upLoop fuel q 0 = q := by
  cases fuel with
  | zero => rfl
  | succ fuel => rw [upLoop_succ, if_pos (Or.inl rfl)]

/-- `heap.Pop` is `heap.Remove` at position `0`: the `up` call that `Remove`
may add does nothing at the root. -/
theorem Pop_eq_Remove (q : eventQueue) : heap.Pop q = heap.Remove q 0 := by
  unfold heap.Pop heap.Remove
  by_cases h0 : q.length = 0
  · have hg : (0 : Int) < 0 ∨ (q.length : Int) ≤ 0 := by omega
    rw [if_pos h0, if_pos hg]
  · have hg : ¬ ((0 : Int) < 0 ∨ (q.length : Int) ≤ 0) := by omega
    rw [if_neg h0, if_neg hg]
    simp only [Int.toNat_zero]
    by_cases h1 : q.length - 1 = 0
    · rw [if_neg (not_not.mpr h1), h1]
      match q, h0, h1 with
      | [a], _, _ => rfl
      | [], h0, _ => exact absurd rfl h0
      | _ :: _ :: _, _, h1 => simp at h1
    · rw [if_pos h1]
      by_cases hm : (heap.down (eventQueue.Swap q 0 (q.length - 1)) 0 (q.length - 1)).2 = false
      · rw [if_pos hm]
        unfold heap.up
        rw [upLoop_zero_pos]
      · rw [if_neg hm]

theorem Pop_spec (q : eventQueue) (e : event) (he : q[0]? = some e) :
    ∃ q', heap.Pop q = some (detach e, q') ∧ q'.length + 1 = q.length ∧
      (detach e :: q'.map detach).Perm (q.map detach) ∧ (indexOk q → indexOk q') ∧
      (heapOrdered q → heapOrdered q') := by
  rw [Pop_eq_Remove]
  exact Remove_spec q 0 e he

theorem Push_spec (q : eventQueue) (x : event) :
    (heap.Push q x).length = q.length + 1 ∧
      ((heap.Push q x).map detach).Perm (detach x :: q.map detach) ∧
      (indexOk q → indexOk (heap.Push q x)) ∧ (heapOrdered q → heapOrdered (heap.Push q x)) := by
  have hlen1 : (eventQueue.Push q x).length = q.length + 1 := by simp [eventQueue.Push]
  have hS : Shuffled (eventQueue.Push q x) (heap.Push q x) (q.length + 1) := by
    unfold heap.Push heap.up
    exact upLoop_shuffled _ _ _ _ (by omega)
  refine ⟨hS.1.trans hlen1, ?_, ?_, ?_⟩
  · refine hS.2.1.trans ?_
    simp only [eventQueue.Push, List.map_append, List.map_cons, List.map_nil]
    exact List.perm_append_singleton _ _
  · intro h
    apply hS.2.2.1
    intro k e hk
    by_cases hkl : k < q.length
    · rw [eventQueue.Push, List.getElem?_append_left hkl] at hk
      exact h k e hk
    · have hk2 : k < (eventQueue.Push q x).length := (List.getElem?_eq_some_iff.mp hk).1
      have hke : k = q.length := by omega
      subst hke
      simp [eventQueue.Push] at hk
      rw [← hk]
  · intro h
    rw [heapOrdered_iff, hS.1, hlen1]
    have hU := (heapOrdered_iff q).mp h
    unfold heap.Push heap.up
    simp only [hlen1, Nat.add_sub_cancel]
    apply upLoop_heap (q.length + 1) _ q.length (q.length + 1) (by omega) (by omega) (by omega)
    have hkey : ∀ k, k < q.length → keyAt (eventQueue.Push q x) k = keyAt q k := by
      intro k hk
      unfold keyAt eventQueue.Push
      rw [List.getElem?_append_left hk]
    refine ⟨fun k hk0 hkn hkj => ?_, fun k hk0 hkn hkj _ => by omega⟩
    rw [hkey _ (by omega), hkey _ (by omega)]
    exact hU k hk0 (by omega)

theorem heapOrdered_root_le (q : eventQueue) (h : heapOrdered q) (k : Nat) (hk : k < q.length) :
    keyAt q 0 ≤ keyAt q k := by
  induction k using Nat.strong_induction_on with
  | _ k ih =>
    by_cases h0 : k = 0
    · rw [h0]
    · have h1 := ih ((k - 1) / 2) (by omega) (by omega)
      have h2 := (heapOrdered_iff q).mp h k (by omega) hk
      omega

/-! ## Fuel of the two loops -/

theorem upLoop_fuel (f1 f2 : Nat) (q : eventQueue) (j : Nat) (h1 : j < f1) (h2 : j < f2) :
    heap.upLoop f1 q j = heap.upLoop f2 q j := by
  induction f1 generalizing f2 q j with
  | zero => omega
  | succ f1 ih =>
    cases f2 with
    | zero => omega
    | succ f2 =>
      rw [upLoop_succ, upLoop_succ]
      by_cases hc : (j - 1) / 2 = j ∨ eventQueue.Less q j ((j - 1) / 2) = false
      · rw [if_pos hc, if_pos hc]
      · rw [if_neg hc, if_neg hc]
        have : (j - 1) / 2 ≠ j := fun e => hc (Or.inl e)
        exact ih _ _ _ (by omega) (by omega)

theorem downLoop_fuel (f1 f2 : Nat) (q : eventQueue) (i n : Nat) (h1 : n - i ≤ f1)
    (h2 : n - i ≤ f2) : heap.downLoop f1 q i n = heap.downLoop f2 q i n := by
  induction f1 generalizing f2 q i with
  | zero =>
    cases f2 with
    | zero => rfl
    | succ f2 =>
      have hc : n ≤ 2 * i + 1 := by omega
      rw [downLoop_succ, if_pos hc]
      rfl
  | succ f1 ih =>
    rw [downLoop_succ]
    by_cases hc : n ≤ 2 * i + 1
    · rw [if_pos hc]
      cases f2 with
      | zero => rfl
      | succ f2 => rw [downLoop_succ, if_pos hc]
    · cases f2 with
      | zero => omega
      | succ f2 =>
        rw [downLoop_succ, if_neg hc, if_neg hc]
        by_cases hL : eventQueue.Less q (minChild q i n) i = false
        · rw [if_pos hL, if_pos hL]
        · rw [if_neg hL, if_neg hL]
          have : i < minChild q i n := by
            rcases minChild_cases q i n with e | e <;> omega
          exact ih _ _ _ (by omega) (by omega)

/-! ## Queues built by the heap operations -/

theorem Remove_some_inv (q : eventQueue) (i : Int) (e : event) (q' : eventQueue)
    (h : heap.Remove q i = some (e, q')) :
    ∃ (k : Nat) (e0 : event), i = (k : Int) ∧ q[k]? = some e0 ∧ e = detach e0 ∧
      q'.length + 1 = q.length ∧ (detach e0 :: q'.map detach).Perm (q.map detach) ∧
      (indexOk q → indexOk q') ∧ (heapOrdered q → heapOrdered q') := by
  have hg : ¬ (i < 0 ∨ (q.length : Int) ≤ i) := by
    intro hg
    unfold heap.Remove at h
    rw [if_pos hg] at h
    cases h
  have hi : i = ((i.toNat : Nat) : Int) := by omega
  have hk : i.toNat < q.length := by omega
  obtain ⟨q'', h1, h2, h3, h4, h5⟩ := Remove_spec q i.toNat q[i.toNat] (List.getElem?_eq_getElem hk)
  rw [← hi, h] at h1
  have h6 := Option.some.inj h1
  have h7 : e = detach q[i.toNat] := congrArg Prod.fst h6
  have h8 : q' = q'' := congrArg Prod.snd h6
  subst h8
  exact ⟨i.toNat, q[i.toNat], hi, List.getElem?_eq_getElem hk, h7, h2, h3, h4, h5⟩

theorem Pop_some_inv (q : eventQueue) (e : event) (q' : eventQueue)
    (h : heap.Pop q = some (e, q')) :
    ∃ (e0 : event), q[0]? = some e0 ∧ e = detach e0 ∧
      q'.length + 1 = q.length ∧ (detach e0 :: q'.map detach).Perm (q.map detach) ∧
      (indexOk q → indexOk q') ∧ (heapOrdered q → heapOrdered q') := by
  rw [Pop_eq_Remove] at h
  obtain ⟨k, e0, hk, h1, h2, h3, h4, h5, h6⟩ := Remove_some_inv q 0 e q' h
  have : k = 0 := by omega
  subst this
  exact ⟨e0, h1, h2, h3, h4, h5, h6⟩

theorem heapOrdered_nil : heapOrdered [] := by
  intro i hi
  simp at hi

theorem indexOk_nil : indexOk [] := by
  intro k e hk
  simp at hk

theorem Built_inv (q : eventQueue) (h : Built q) : heapOrdered q ∧ indexOk q := by
  induction h with
  | empty => exact ⟨heapOrdered_nil, indexOk_nil⟩
  | push q x _ ih =>
    have := Push_spec q x
    exact ⟨this.2.2.2 ih.1, this.2.2.1 ih.2⟩
  | pop q e q' _ hp ih =>
    obtain ⟨_, _, _, _, _, h5, h6⟩ := Pop_some_inv q e q' hp
    exact ⟨h6 ih.1, h5 ih.2⟩
  | remove q i e q' _ hr ih =>
    obtain ⟨_, _, _, _, _, _, _, h5, h6⟩ := Remove_some_inv q i e q' hr
    exact ⟨h6 ih.1, h5 ih.2⟩

theorem heapOrdered_min (q : eventQueue) (h : heapOrdered q) (e0 e : event)
    (h0 : q[0]? = some e0) (he : e ∈ q) : e0.expire ≤ e.expire := by
  obtain ⟨k, hk, hke⟩ := List.getElem_of_mem he
  have h1 := heapOrdered_root_le q h k hk
  have h2 : q[k]? = some e := by rw [List.getElem?_eq_getElem hk, hke]
  rw [keyAt_of_getElem? q 0 e0 h0, keyAt_of_getElem? q k e h2] at h1
  exact h1

/-! ## Claims on the expiry queue -/

/-- C1 (heap-order invariant): `heap.Push` of any event, `heap.Pop` on a
non-empty queue and `heap.Remove` at any valid index each succeed on a
heap-ordered queue and return a heap-ordered queue; and in every queue built
from the empty queue by these operations the event at index 0 expires no later
than any resident event. -/
theorem C1_heap_order_invariant :
    (∀ (q : eventQueue) (x : event), heapOrdered q → heapOrdered (heap.Push q x)) ∧
    (∀ q : eventQueue, heapOrdered q → q ≠ [] →
      ∃ e q', heap.Pop q = some (e, q') ∧ heapOrdered q') ∧
    (∀ (q : eventQueue) (i : Nat), heapOrdered q → i < q.length →
      ∃ e q', heap.Remove q (i : Int) = some (e, q') ∧ heapOrdered q') ∧
    (∀ q : eventQueue, Built q → ∀ e0 e : event, q[0]? = some e0 → e ∈ q →
      e0.expire ≤ e.expire) := by
  refine ⟨fun q x h => (Push_spec q x).2.2.2 h, ?_, ?_, ?_⟩
  · intro q h hne
    have h0 : 0 < q.length := List.length_pos.mpr hne
    obtain ⟨q', h1, _, _, _, h5⟩ := Pop_spec q q[0] (List.getElem?_eq_getElem h0)
    exact ⟨_, q', h1, h5 h⟩
  · intro q i h hi
    obtain ⟨q', h1, _, _, _, h5⟩ := Remove_spec q i q[i] (List.getElem?_eq_getElem hi)
    exact ⟨_, q', h1, h5 h⟩
  · intro q hb e0 e h0 he
    exact heapOrdered_min q (Built_inv q hb).1 e0 e h0 he

theorem popN_sorted (n : Nat) (q : eventQueue) (hlen : q.length = n) (h : heapOrdered q) :
    ∃ out, popN n q = some (out, []) ∧ out.length = n ∧ out.Perm (q.map detach) ∧
      out.Pairwise (fun a b => a.expire ≤ b.expire) := by
  induction n generalizing q with
  | zero =>
    have hq : q = [] := List.length_eq_zero.mp hlen
    subst hq
    exact ⟨[], rfl, rfl, List.Perm.refl _, List.Pairwise.nil⟩
  | succ n ih =>
    have h0 : 0 < q.length := by omega
    obtain ⟨q', h1, h2, h3, _, h5⟩ := Pop_spec q q[0] (List.getElem?_eq_getElem h0)
    obtain ⟨out, o1, o2, o3, o4⟩ := ih q' (by omega) (h5 h)
    refine ⟨detach q[0] :: out, ?_, by simp [o2], ?_, ?_⟩
    · simp only [popN, h1, o1]
    · exact (List.Perm.cons _ o3).trans h3
    · refine List.Pairwise.cons (fun x hx => ?_) o4
      have hx1 : x ∈ q'.map detach := o3.mem_iff.mp hx
      have hx2 : x ∈ q.map detach := h3.mem_iff.mp (List.mem_cons_of_mem _ hx1)
      obtain ⟨y, hy, hyx⟩ := List.mem_map.mp hx2
      have := heapOrdered_min q h q[0] y (List.getElem?_eq_getElem h0) hy
      rw [← hyx]
      exact this

theorem removeAll_empties (n : Nat) (q : eventQueue) (is : List Int) (hlen : q.length = n)
    (hv : validIndices n is) : removeAll q is = some [] := by
  induction n generalizing q is with
  | zero =>
    have hq : q = [] := List.length_eq_zero.mp hlen
    have hi : is = [] := hv
    subst hq hi
    rfl
  | succ n ih =>
    cases is with
    | nil => exact absurd hv (by simp [validIndices])
    | cons i is =>
      obtain ⟨hi0, hin, hrest⟩ := hv
      have hk : i.toNat < q.length := by omega
      have hi : i = ((i.toNat : Nat) : Int) := by omega
      obtain ⟨q', h1, h2, _⟩ := Remove_spec q i.toNat q[i.toNat] (List.getElem?_eq_getElem hk)
      rw [← hi] at h1
      simp only [removeAll, h1]
      exact ih q' is (by omega) hrest

/-- C2: `n` successive `heap.Pop` calls on a heap-ordered queue of `n` events
all succeed, return exactly the resident events (as a multiset, each
detached), in non-decreasing order of `expire`, and leave the queue empty. -/
theorem C2_pop_all_sorted (q : eventQueue) (h : heapOrdered q) :
    ∃ out, popN q.length q = some (out, []) ∧ out.length = q.length ∧
      out.Perm (q.map detach) ∧ out.Pairwise (fun a b => a.expire ≤ b.expire) :=
  popN_sorted q.length q rfl h

/-- C3: on a heap-ordered queue, `heap.Remove` at a valid index `i` returns
the event that was at position `i` (detached), and the remaining queue is one
shorter, holds exactly the other events and is heap-ordered; removing at valid
indices as many times as there are events empties the queue. -/
theorem C3_remove_exact (q : eventQueue) (i : Nat) (e : event) (h : heapOrdered q)
    (he : q[i]? = some e) :
    (∃ q', heap.Remove q (i : Int) = some (detach e, q') ∧ q'.length = q.length - 1 ∧
      (detach e :: q'.map detach).Perm (q.map detach) ∧ heapOrdered q') ∧
    (∀ is : List Int, validIndices q.length is → removeAll q is = some []) := by
  constructor
  · obtain ⟨q', h1, h2, h3, _, h5⟩ := Remove_spec q i e he
    exact ⟨q', h1, by omega, h3, h5 h⟩
  · intro is hv
    exact removeAll_empties q.length q is rfl hv

/-- C4 (index invariant): every queue built from the empty queue by
`heap.Push`, `heap.Pop` and `heap.Remove` stores at each position an event
whose `index` field is that position, and the event returned by `heap.Pop` or
`heap.Remove` carries `index = -1`. -/
theorem C4_index_invariant :
    (∀ q : eventQueue, Built q → ∀ (k : Nat) (e : event), q[k]? = some e →
      e.index = (k : Int)) ∧
    (∀ (q : eventQueue) (e : event) (q' : eventQueue),
      heap.Pop q = some (e, q') → e.index = -1) ∧
    (∀ (q : eventQueue) (i : Int) (e : event) (q' : eventQueue),
      heap.Remove q i = some (e, q') → e.index = -1) := by
  refine ⟨fun q hb => (Built_inv q hb).2, ?_, ?_⟩
  · intro q e q' h
    obtain ⟨e0, _, h2, _⟩ := Pop_some_inv q e q' h
    rw [h2]
    rfl
  · intro q i e q' h
    obtain ⟨_, e0, _, _, h2, _⟩ := Remove_some_inv q i e q' h
    rw [h2]
    rfl

/-! ## Sequences of resident events -/

theorem seqs_map_detach (q : eventQueue) : (q.map detach).map event.seq = seqs q := by
  unfold seqs
  rw [List.map_map]
  rfl

theorem seqs_perm (q1 q2 : eventQueue) (h : (q1.map detach).Perm (q2.map detach)) :
    (seqs q1).Perm (seqs q2) := by
  have := h.map event.seq
  rw [seqs_map_detach, seqs_map_detach] at this
  exact this

theorem seqs_perm_cons (e : event) (q1 q2 : eventQueue)
    (h : (detach e :: q1.map detach).Perm (q2.map detach)) :
    (e.seq :: seqs q1).Perm (seqs q2) := by
  have := h.map event.seq
  rw [List.map_cons, seqs_map_detach, seqs_map_detach] at this
  exact this

theorem seqs_perm_push (e : event) (q1 q2 : eventQueue)
    (h : (q2.map detach).Perm (detach e :: q1.map detach)) :
    (seqs q2).Perm (e.seq :: seqs q1) := by
  have := h.map event.seq
  rw [List.map_cons, seqs_map_detach, seqs_map_detach] at this
  exact this

/-! ## `AddTimer` -/

theorem newEvent_ok (t : timerService) (now interval : Int) (isRepeate : Bool)
    (handlerName : String) (args : Iface) (h : timerHandler) (hi : 0 ≤ interval)
    (hn : t.handlers.lookup handlerName = some h) :
    t.newEvent now interval isRepeate handlerName args =
      Except.ok { seq := 0, index := 0, name := handlerName, arg := args, interval := interval,
                  isRepeat := isRepeate, expire := now + interval } := by
  unfold timerService.newEvent
  rw [if_neg (by omega), hn]
  rfl

theorem C6_add_accepted_aux (t : timerService) (now interval : Int) (isRepeate : Bool)
    (handlerName : String) (args : Iface) (h : timerHandler) (hi : 0 ≤ interval)
    (hn : t.handlers.lookup handlerName = some h) :
    (t.AddTimer now interval isRepeate handlerName args).1 = (t.sequence + 1, none) := by
  unfold timerService.AddTimer
  rw [newEvent_ok t now interval isRepeate handlerName args h hi hn]
  rfl

/-- C6 (accepted add): with `interval ≥ 0` and a registered handler name,
`AddTimer` returns `sequence + 1` and no error; the new counter is
`sequence + 1`, the queue holds the old events plus one new event with that
sequence, the given name, argument, interval and repeat flag and
`expire = now + interval`, and every other field is unchanged. -/
theorem C6_add_accepted (t : timerService) (now interval : Int) (isRepeate : Bool)
    (handlerName : String) (args : Iface) (h : timerHandler) (hi : 0 ≤ interval)
    (hn : t.handlers.lookup handlerName = some h) :
    (t.AddTimer now interval isRepeate handlerName args).1 = (t.sequence + 1, none) ∧
    (t.AddTimer now interval isRepeate handlerName args).2.sequence = t.sequence + 1 ∧
    (∃ e : event, e.seq = t.sequence + 1 ∧ e.name = handlerName ∧ e.arg = args ∧
      e.interval = interval ∧ e.isRepeat = isRepeate ∧ e.expire = now + interval ∧
      ((t.AddTimer now interval isRepeate handlerName args).2.events.map detach).Perm
        (detach e :: t.events.map detach)) ∧
    (t.AddTimer now interval isRepeate handlerName args).2.events.length
      = t.events.length + 1 ∧
    (t.AddTimer now interval isRepeate handlerName args).2.handlers = t.handlers ∧
    (t.AddTimer now interval isRepeate handlerName args).2.trash = t.trash ∧
    (t.AddTimer now interval isRepeate handlerName args).2.accuracy = t.accuracy ∧
    (t.AddTimer now interval isRepeate handlerName args).2.isInit = t.isInit := by
  unfold timerService.AddTimer
  rw [newEvent_ok t now interval isRepeate handlerName args h hi hn]
  refine ⟨rfl, rfl,
    ⟨event.mk (t.sequence + 1) 0 handlerName args interval isRepeate (now + interval),
      rfl, rfl, rfl, rfl, rfl, rfl, ?_⟩, ?_, rfl, rfl, rfl, rfl⟩
  · exact (Push_spec t.events _).2.1
  · exact (Push_spec t.events _).1

/-- C7: with `interval < 0`, whatever the other arguments, `AddTimer` returns
sequence `0` with an error and the state is unchanged. -/
theorem C7_add_negative_interval (t : timerService) (now interval : Int) (isRepeate : Bool)
    (handlerName : String) (args : Iface) (hi : interval < 0) :
    (t.AddTimer now interval isRepeate handlerName args).1.1 = 0 ∧
    (t.AddTimer now interval isRepeate handlerName args).1.2.isSome = true ∧
    (t.AddTimer now interval isRepeate handlerName args).2 = t := by
  unfold timerService.AddTimer timerService.newEvent
  rw [if_pos hi]
  exact ⟨rfl, rfl, rfl⟩

/-- C8: with a handler name that is not a key of the registry, `AddTimer`
returns sequence `0` with an error and the state is unchanged; with a
registered name and `interval ≥ 0` it returns no error. -/
theorem C8_add_unknown_handler (t : timerService) (now interval : Int) (isRepeate : Bool)
    (handlerName : String) (args : Iface) :
    (t.handlers.lookup handlerName = none →
      (t.AddTimer now interval isRepeate handlerName args).1.1 = 0 ∧
      (t.AddTimer now interval isRepeate handlerName args).1.2.isSome = true ∧
      (t.AddTimer now interval isRepeate handlerName args).2 = t) ∧
    ((t.handlers.lookup handlerName).isSome = true → 0 ≤ interval →
      (t.AddTimer now interval isRepeate handlerName args).1.2 = none) := by
  constructor
  · intro hn
    unfold timerService.AddTimer timerService.newEvent
    by_cases hi : interval < 0
    · rw [if_pos hi]
      exact ⟨rfl, rfl, rfl⟩
    · rw [if_neg hi, hn]
      exact ⟨rfl, rfl, rfl⟩
  · intro hn hi
    obtain ⟨h, hh⟩ := Option.isSome_iff_exists.mp hn
    exact congrArg Prod.snd (C6_add_accepted_aux t now interval isRepeate handlerName args h hi hh)

/-! ## The purge pass -/

theorem filter_map_detach (P : Int → Bool) (q : eventQueue) :
    (q.map detach).filter (fun e => P e.seq) = (q.filter (fun e => P e.seq)).map detach := by
  rw [List.filter_map]
  rfl

theorem delOne_spec (q : eventQueue) (s : Int) (hI : indexOk q) (hN : (seqs q).Nodup) :
    ∃ q1, delOne q s = some q1 ∧
      (q1.map detach).Perm ((q.filter (fun e => decide (e.seq ≠ s))).map detach) ∧
      indexOk q1 ∧ (seqs q1).Nodup ∧ (heapOrdered q → heapOrdered q1) ∧
      (s ∉ seqs q → q1 = q) := by
  unfold delOne
  cases hf : q.find? (fun e => decide (e.seq = s)) with
  | none =>
    have hall : ∀ e ∈ q, e.seq ≠ s := by
      intro e he
      have := List.find?_eq_none.mp hf e he
      simpa using this
    refine ⟨q, rfl, ?_, hI, hN, id, fun _ => rfl⟩
    have : q.filter (fun e => decide (e.seq ≠ s)) = q := by
      rw [List.filter_eq_self]
      intro e he
      simpa using hall e he
    rw [this]
  | some e =>
    have hes : e.seq = s := by
      have := List.find?_some hf
      simpa using this
    have hmem : e ∈ q := List.mem_of_find?_eq_some hf
    obtain ⟨k, hk, hke⟩ := List.getElem_of_mem hmem
    have hget : q[k]? = some e := by rw [List.getElem?_eq_getElem hk, hke]
    have hidx : e.index = (k : Int) := hI k e hget
    obtain ⟨q', h1, _, h3, h4, h5⟩ := Remove_spec q k e hget
    have hsq := seqs_perm_cons e q' q h3
    have hnd : (e.seq :: seqs q').Nodup := hsq.nodup_iff.mpr hN
    have hnot : e.seq ∉ seqs q' := (List.nodup_cons.mp hnd).1
    simp only [hidx, h1]
    refine ⟨q', rfl, ?_, h4 hI, (List.nodup_cons.mp hnd).2, h5, ?_⟩
    · have hf1 := h3.filter (fun x => decide (x.seq ≠ s))
      rw [filter_map_detach (fun x => decide (x ≠ s)) q] at hf1
      have hhead : List.filter (fun x => decide (x.seq ≠ s)) (detach e :: q'.map detach)
          = q'.map detach := by
        have hd : (detach e).seq = s := hes
        rw [List.filter_cons_of_neg (by simp [hd])]
        rw [List.filter_eq_self]
        intro x hx
        have hx2 : x.seq ∈ seqs q' := by
          rw [← seqs_map_detach]
          exact List.mem_map_of_mem _ hx
        have : x.seq ≠ s := fun hc => hnot (by rw [hes, ← hc]; exact hx2)
        simpa using this
      rw [hhead] at hf1
      exact hf1
    · intro hns
      exact absurd (by rw [← hes]; exact List.mem_map_of_mem _ hmem) hns

theorem purge_spec (q : eventQueue) (ss : List Int) (hI : indexOk q) (hN : (seqs q).Nodup) :
    ∃ q1, purge q ss = some q1 ∧
      (q1.map detach).Perm ((q.filter (fun e => decide (e.seq ∉ ss))).map detach) ∧
      indexOk q1 ∧ (seqs q1).Nodup ∧ (heapOrdered q → heapOrdered q1) ∧
      ((∀ s ∈ ss, s ∉ seqs q) → q1 = q) := by
  induction ss generalizing q with
  | nil =>
    refine ⟨q, rfl, ?_, hI, hN, id, fun _ => rfl⟩
    simp
  | cons s ss ih =>
    obtain ⟨q1, d1, d2, d3, d4, d5, d6⟩ := delOne_spec q s hI hN
    obtain ⟨q2, p1, p2, p3, p4, p5, p6⟩ := ih q1 d3 d4
    refine ⟨q2, by simp only [purge, d1, p1], ?_, p3, p4, fun h => p5 (d5 h), ?_⟩
    · refine p2.trans ?_
      have hf1 := d2.filter (fun x => decide (x.seq ∉ ss))
      rw [filter_map_detach (fun x => decide (x ∉ ss)) q1,
        filter_map_detach (fun x => decide (x ∉ ss))] at hf1
      refine hf1.trans ?_
      rw [List.filter_filter]
      have : (fun e : event => (decide (e.seq ∉ ss) && decide (e.seq ≠ s)))
          = (fun e : event => decide (e.seq ∉ s :: ss)) := by
        funext e
        by_cases h1 : e.seq = s <;> by_cases h2 : e.seq ∈ ss <;> simp [h1, h2]
      rw [this]
    · intro hall
      have e1 : q1 = q := d6 (hall s (List.mem_cons_self _ _))
      have e2 : q2 = q1 := p6 (fun s' hs' => by
        rw [e1]
        exact hall s' (List.mem_cons_of_mem _ hs'))
      rw [e2, e1]

/-- C9 (purge pass): when resident events have pairwise distinct sequences and
correct `index` fields, `doDelTimer` does not panic, empties the pending set
and keeps exactly the events whose sequence was not pending (as a multiset),
heap order is kept, the other fields are untouched, and when no pending
sequence matches a resident event the queue is unchanged. -/
theorem C9_purge_pass (t : timerService) (hN : (seqs t.events).Nodup)
    (hI : indexOk t.events) :
    ∃ t1, t.doDelTimer = some t1 ∧ t1.trash = [] ∧
      (t1.events.map detach).Perm
        ((t.events.filter (fun e => decide (e.seq ∉ t.trash))).map detach) ∧
      (heapOrdered t.events → heapOrdered t1.events) ∧
      indexOk t1.events ∧ (seqs t1.events).Nodup ∧
      t1.sequence = t.sequence ∧ t1.handlers = t.handlers ∧
      ((∀ s ∈ t.trash, s ∉ seqs t.events) → t1.events = t.events) := by
  obtain ⟨q1, p1, p2, p3, p4, p5, p6⟩ := purge_spec t.events t.trash hI hN
  refine ⟨{ t with events := q1, trash := [] }, ?_, rfl, p2, p5, p3, p4, rfl, rfl, p6⟩
  unfold timerService.doDelTimer
  rw [p1]

/-! ## The invariant through the loop -/

theorem doAddTimer_spec (t : timerService) (e : event) (h : Inv t) :
    Inv (t.doAddTimer e).1 ∧ (t.doAddTimer e).1.sequence = t.sequence + 1 ∧
      (t.doAddTimer e).2 = t.sequence + 1 ∧ (t.doAddTimer e).1.trash = t.trash ∧
      (seqs (t.doAddTimer e).1.events).Perm ((t.sequence + 1) :: seqs t.events) := by
  obtain ⟨h1, h2, h3, h4⟩ := h
  have hp := Push_spec t.events { e with seq := t.sequence + 1 }
  have hs : (seqs (t.doAddTimer e).1.events).Perm ((t.sequence + 1) :: seqs t.events) :=
    seqs_perm_push { e with seq := t.sequence + 1 } t.events _ hp.2.1
  refine ⟨⟨hp.2.2.2 h1, hp.2.2.1 h2, ?_, ?_⟩, rfl, rfl, rfl, hs⟩
  · rw [hs.nodup_iff, List.nodup_cons]
    refine ⟨fun hmem => ?_, h3⟩
    have := h4 _ hmem
    omega
  · intro x hx
    have hx2 := hs.mem_iff.mp hx
    rcases List.mem_cons.mp hx2 with e1 | e1
    · rw [e1]; exact le_refl _
    · have := h4 x e1
      show x ≤ t.sequence + 1
      omega

theorem doDelTimer_spec (t : timerService) (h : Inv t) :
    ∃ t1, t.doDelTimer = some t1 ∧ Inv t1 ∧ t1.sequence = t.sequence ∧ t1.trash = [] ∧
      t1.handlers = t.handlers ∧ (∀ x ∈ seqs t1.events, x ∈ seqs t.events ∧ x ∉ t.trash) := by
  obtain ⟨h1, h2, h3, h4⟩ := h
  obtain ⟨q1, p1, p2, p3, p4, p5, _⟩ := purge_spec t.events t.trash h2 h3
  have hsub : ∀ x ∈ seqs q1, x ∈ seqs t.events ∧ x ∉ t.trash := by
    intro x hx
    have hx2 := (seqs_perm _ _ p2).mem_iff.mp hx
    obtain ⟨e, he, hex⟩ := List.mem_map.mp hx2
    have he2 := List.mem_filter.mp he
    refine ⟨?_, ?_⟩
    · rw [← hex]
      exact List.mem_map_of_mem _ he2.1
    · rw [← hex]
      simpa using he2.2
  refine ⟨{ t with events := q1, trash := [] }, ?_, ⟨p5 h1, p3, p4, ?_⟩, rfl, rfl, rfl, hsub⟩
  · unfold timerService.doDelTimer
    rw [p1]
  · intro x hx
    exact h4 x (hsub x hx).1

theorem scan_spec (fuel : Nat) (now : Int) (t : timerService) (log : List dispatch)
    (h : Inv t) :
    Inv (timerService.scan fuel now t log).service ∧
      (timerService.scan fuel now t log).service.sequence = t.sequence ∧
      (timerService.scan fuel now t log).service.trash = t.trash ∧
      (timerService.scan fuel now t log).service.handlers = t.handlers ∧
      (∀ x ∈ seqs (timerService.scan fuel now t log).service.events, x ∈ seqs t.events) ∧
      (∃ new, (timerService.scan fuel now t log).launched = log ++ new ∧
        ∀ d ∈ new, d.ev.seq ∈ seqs t.events) ∧
      (timerService.scan fuel now t log).replies = [] ∧
      ((timerService.scan fuel now t log).st = status.ok ∨
        (timerService.scan fuel now t log).st = status.unfinished) := by
  induction fuel generalizing t log with
  | zero =>
    exact ⟨h, rfl, rfl, rfl, fun x hx => hx, ⟨[], by simp [timerService.scan], by simp⟩, rfl,
      Or.inr rfl⟩
  | succ fuel ih =>
    unfold timerService.scan
    cases h0 : t.events[0]? with
    | none =>
      exact ⟨h, rfl, rfl, rfl, fun x hx => hx, ⟨[], by simp, by simp⟩, rfl, Or.inl rfl⟩
    | some e0 =>
      simp only
      by_cases hexp : e0.expire > now
      · rw [if_pos hexp]
        exact ⟨h, rfl, rfl, rfl, fun x hx => hx, ⟨[], by simp, by simp⟩, rfl, Or.inl rfl⟩
      · rw [if_neg hexp]
        obtain ⟨h1, h2, h3, h4⟩ := h
        obtain ⟨q, p1, _, p3, p4, p5⟩ := Pop_spec t.events e0 h0
        have hs := seqs_perm_cons e0 q t.events p3
        have hnd : (e0.seq :: seqs q).Nodup := hs.nodup_iff.mpr h3
        have hsubq : ∀ x ∈ seqs q, x ∈ seqs t.events :=
          fun x hx => hs.mem_iff.mp (List.mem_cons_of_mem _ hx)
        have he0 : e0.seq ∈ seqs t.events := hs.mem_iff.mp (List.mem_cons_self _ _)
        have hInvq : Inv { t with events := q } :=
          ⟨p5 h1, p4 h2, (List.nodup_cons.mp hnd).2, fun x hx => h4 x (hsubq x hx)⟩
        rw [p1]
        simp only
        cases hl : t.handlers.lookup (detach e0).name with
        | none =>
          simp only
          obtain ⟨i1, i2, i3, i4, i5, ⟨new, i6, i7⟩, i8, i9⟩ := ih { t with events := q } log hInvq
          exact ⟨i1, i2, i3, i4, fun x hx => hsubq x (i5 x hx),
            ⟨new, i6, fun d hd => hsubq _ (i7 d hd)⟩, i8, i9⟩
        | some hd =>
          simp only
          by_cases hr : (detach e0).isRepeat = true
          · rw [if_pos hr]
            have hp := Push_spec q (rearm (detach e0) now)
            have hs2 : (seqs (heap.Push q (rearm (detach e0) now))).Perm (e0.seq :: seqs q) :=
              seqs_perm_push (rearm (detach e0) now) q _ hp.2.1
            have hsub2 : ∀ x ∈ seqs (heap.Push q (rearm (detach e0) now)),
                x ∈ seqs t.events :=
              fun x hx => hs.mem_iff.mp (hs2.mem_iff.mp hx)
            have hInv2 : Inv { t with events := heap.Push q (rearm (detach e0) now) } :=
              ⟨hp.2.2.2 (p5 h1), hp.2.2.1 (p4 h2), hs2.nodup_iff.mpr hnd,
                fun x hx => h4 x (hsub2 x hx)⟩
            obtain ⟨i1, i2, i3, i4, i5, ⟨new, i6, i7⟩, i8, i9⟩ :=
              ih _ (log ++ [⟨hd, detach e0⟩]) hInv2
            refine ⟨i1, i2, i3, i4, fun x hx => hsub2 x (i5 x hx),
              ⟨⟨hd, detach e0⟩ :: new, ?_, ?_⟩, i8, i9⟩
            · rw [i6]; simp
            · intro d hdm
              rcases List.mem_cons.mp hdm with e1 | e1
              · rw [e1]; exact he0
              · exact hsub2 _ (i7 d e1)
          · rw [if_neg hr]
            obtain ⟨i1, i2, i3, i4, i5, ⟨new, i6, i7⟩, i8, i9⟩ :=
              ih { t with events := q } (log ++ [⟨hd, detach e0⟩]) hInvq
            refine ⟨i1, i2, i3, i4, fun x hx => hsubq x (i5 x hx),
              ⟨⟨hd, detach e0⟩ :: new, ?_, ?_⟩, i8, i9⟩
            · rw [i6]; simp
            · intro d hdm
              rcases List.mem_cons.mp hdm with e1 | e1
              · rw [e1]; exact he0
              · exact hsubq _ (i7 d e1)

theorem runTimeout_spec (t : timerService) (fuel : Nat) (now : Int) (h : Inv t) :
    Inv (t.runTimeout fuel now).service ∧
      (t.runTimeout fuel now).service.sequence = t.sequence ∧
      (t.runTimeout fuel now).service.trash = [] ∧
      (∀ x ∈ seqs (t.runTimeout fuel now).service.events, x ∈ seqs t.events ∧ x ∉ t.trash) ∧
      (∀ d ∈ (t.runTimeout fuel now).launched, d.ev.seq ∈ seqs t.events ∧ d.ev.seq ∉ t.trash) ∧
      (t.runTimeout fuel now).replies = [] ∧
      ((t.runTimeout fuel now).st = status.ok ∨
        (t.runTimeout fuel now).st = status.unfinished) := by
  obtain ⟨t1, d1, d2, d3, d4, _, d6⟩ := doDelTimer_spec t h
  obtain ⟨i1, i2, i3, _, i5, ⟨new, i6, i7⟩, i8, i9⟩ := scan_spec fuel now t1 [] d2
  unfold timerService.runTimeout
  rw [d1]
  refine ⟨i1, i2.trans d3, i3.trans d4, fun x hx => d6 x (i5 x hx), ?_, i8, i9⟩
  intro d hd
  simp only [i6, List.nil_append] at hd
  exact d6 _ (i7 d hd)

theorem Run_cons_ok (fuel : Nat) (t : timerService) (m : msg) (ms : List msg)
    (h : (t.step fuel m).st = status.ok) :
    timerService.Run fuel t (m :: ms) =
      ⟨(timerService.Run fuel (t.step fuel m).service ms).service,
        (t.step fuel m).launched ++ (timerService.Run fuel (t.step fuel m).service ms).launched,
        (t.step fuel m).replies ++ (timerService.Run fuel (t.step fuel m).service ms).replies,
        (timerService.Run fuel (t.step fuel m).service ms).st⟩ := by
  rw [timerService.Run]
  simp only [h]

theorem Run_cons_stop (fuel : Nat) (t : timerService) (m : msg) (ms : List msg)
    (h : (t.step fuel m).st ≠ status.ok) :
    timerService.Run fuel t (m :: ms) = t.step fuel m := by
  rw [timerService.Run]
  cases hs : (t.step fuel m).st with
  | ok => exact absurd hs h
  | stopped => simp only [hs]
  | panicked => simp only [hs]
  | unfinished => simp only [hs]

theorem step_spec (t : timerService) (fuel : Nat) (m : msg) (h : Inv t) :
    Inv (t.step fuel m).service ∧
      (t.step fuel m).service.sequence = t.sequence + (t.step fuel m).replies.length ∧
      (t.step fuel m).replies
        = (List.range (t.step fuel m).replies.length).map (fun k : Nat => t.sequence + 1 + (k : Int)) ∧
      ((t.step fuel m).st = status.ok →
        (t.step fuel m).replies.length = if m.isAdd then 1 else 0) := by
  cases m with
  | tick now =>
    obtain ⟨r1, r2, _, _, _, r6, _⟩ := runTimeout_spec t fuel now h
    simp only [timerService.step, r6, r2]
    exact ⟨r1, by simp, by simp, fun _ => by simp [msg.isAdd]⟩
  | add e =>
    obtain ⟨a1, a2, a3, _⟩ := doAddTimer_spec t e h
    simp only [timerService.step, a2, a3]
    exact ⟨a1, by simp, by simp [List.range_succ], fun _ => by simp [msg.isAdd]⟩
  | del seq =>
    exact ⟨h, by simp [timerService.step], by simp [timerService.step],
      fun _ => by simp [timerService.step, msg.isAdd]⟩
  | done =>
    exact ⟨h, by simp [timerService.step], by simp [timerService.step],
      fun _ => by simp [timerService.step, msg.isAdd]⟩

theorem range_shift (a : Int) (m n : Nat) :
    (List.range m).map (fun k : Nat => a + 1 + (k : Int)) ++
        (List.range n).map (fun k : Nat => a + (m : Int) + 1 + (k : Int))
      = (List.range (m + n)).map (fun k : Nat => a + 1 + (k : Int)) := by
  rw [List.range_add, List.map_append, List.map_map]
  congr 1
  apply List.map_congr_left
  intro k _
  simp only [Function.comp]
  push_cast
  omega

theorem Run_spec (fuel : Nat) (t : timerService) (msgs : List msg) (h : Inv t) :
    Inv (timerService.Run fuel t msgs).service ∧
      (timerService.Run fuel t msgs).service.sequence
        = t.sequence + (timerService.Run fuel t msgs).replies.length ∧
      (timerService.Run fuel t msgs).replies
        = (List.range (timerService.Run fuel t msgs).replies.length).map
            (fun k : Nat => t.sequence + 1 + (k : Int)) ∧
      ((timerService.Run fuel t msgs).st = status.ok →
        (timerService.Run fuel t msgs).replies.length = msgs.countP msg.isAdd) := by
  induction msgs generalizing t with
  | nil =>
    exact ⟨h, by simp [timerService.Run], by simp [timerService.Run],
      fun _ => by simp [timerService.Run]⟩
  | cons m ms ih =>
    obtain ⟨s1, s2, s3, s4⟩ := step_spec t fuel m h
    by_cases hst : (t.step fuel m).st = status.ok
    · rw [Run_cons_ok fuel t m ms hst]
      obtain ⟨r1, r2, r3, r4⟩ := ih (t.step fuel m).service s1
      simp only [List.length_append]
      refine ⟨r1, ?_, ?_, ?_⟩
      · rw [r2, s2]
        push_cast
        omega
      · rw [← range_shift]
        rw [← s3, ← s2, ← r3]
      · intro hok
        rw [r4 hok, s4 hst, List.countP_cons]
        cases m.isAdd
        · simp
        · simp; omega
    · rw [Run_cons_stop fuel t m ms hst]
      exact ⟨s1, s2, s3, fun hok => absurd hok hst⟩

/-- C5 (sequence numbers are never reused): from a state with an empty queue
and counter `0`, whatever messages the loop consumes, the replies on `addret`
are `1, 2, 3, ...` in consumption order (so strictly increasing and pairwise
distinct), one per add message consumed, resident events never share a
sequence, and an `AddTimer` call that is rejected leaves the counter as it
was. -/
theorem C5_sequences_never_reused (fuel : Nat) (t : timerService) (msgs : List msg)
    (h0 : t.events = []) (hs : t.sequence = 0) :
    (∀ k : Nat, k < (timerService.Run fuel t msgs).replies.length →
      (timerService.Run fuel t msgs).replies[k]? = some ((k : Int) + 1)) ∧
    (timerService.Run fuel t msgs).replies.Pairwise (fun a b => a < b) ∧
    (timerService.Run fuel t msgs).replies.Nodup ∧
    ((timerService.Run fuel t msgs).st = status.ok →
      (timerService.Run fuel t msgs).replies.length = msgs.countP msg.isAdd) ∧
    (timerService.Run fuel t msgs).service.sequence
      = (timerService.Run fuel t msgs).replies.length ∧
    (seqs (timerService.Run fuel t msgs).service.events).Nodup ∧
    (∀ (t1 : timerService) (now interval : Int) (isRepeate : Bool) (handlerName : String)
      (args : Iface), (t1.AddTimer now interval isRepeate handlerName args).1.2.isSome = true →
      (t1.AddTimer now interval isRepeate handlerName args).2.sequence = t1.sequence) := by
  have hInv : Inv t := by
    refine ⟨?_, ?_, ?_, ?_⟩
    · rw [h0]; exact heapOrdered_nil
    · rw [h0]; exact indexOk_nil
    · rw [h0]; exact List.nodup_nil
    · rw [h0]; intro x hx; simp [seqs] at hx
  obtain ⟨r1, r2, r3, r4⟩ := Run_spec fuel t msgs hInv
  rw [hs] at r2 r3
  have hpw : (timerService.Run fuel t msgs).replies.Pairwise (fun a b => a < b) := by
    rw [r3, List.pairwise_map]
    refine List.Pairwise.imp ?_ (List.pairwise_lt_range _)
    intro a b hab
    omega
  refine ⟨?_, hpw, ?_, r4, by rw [r2]; simp, r1.2.2.1, ?_⟩
  · intro k hk
    rw [r3]
    rw [List.getElem?_map, List.getElem?_range hk]
    simp only [Option.map_some']
    congr 1
    omega
  · exact hpw.imp (fun hab => ne_of_lt hab)
  · intro t1 now interval isRepeate handlerName args
    unfold timerService.AddTimer
    cases t1.newEvent now interval isRepeate handlerName args with
    | error err => intro _; rfl
    | ok e => intro hc; simp at hc

/-! ## Cancellation -/

theorem Reachable_Inv (t : timerService) (h : Reachable t) : Inv t := by
  induction h with
  | start t h0 _ =>
    refine ⟨?_, ?_, ?_, ?_⟩
    · rw [h0]; exact heapOrdered_nil
    · rw [h0]; exact indexOk_nil
    · rw [h0]; exact List.nodup_nil
    · rw [h0]; intro x hx; simp [seqs] at hx
  | step t fuel m _ ih => exact (step_spec t fuel m ih).1

theorem step_cancelled (t : timerService) (fuel : Nat) (m : msg) (s : Int)
    (h : Cancelled s t) :
    Cancelled s (t.step fuel m).service ∧ (∀ d ∈ (t.step fuel m).launched, d.ev.seq ≠ s) ∧
      (s ∉ seqs t.events → s ∉ seqs (t.step fuel m).service.events) ∧
      (∀ now, m = msg.tick now → s ∉ seqs (t.step fuel m).service.events) := by
  obtain ⟨hInv, hle, hc⟩ := h
  have hI2 := (step_spec t fuel m hInv).1
  cases m with
  | tick now =>
    obtain ⟨_, r2, _, r4, r5, _, _⟩ := runTimeout_spec t fuel now hInv
    have hgone : s ∉ seqs (t.step fuel (msg.tick now)).service.events := by
      intro hmem
      have := r4 s hmem
      rcases hc with hc | hc
      · exact this.2 hc
      · exact hc this.1
    refine ⟨⟨hI2, ?_, Or.inr hgone⟩, ?_, fun _ => hgone, fun _ _ => hgone⟩
    · show s ≤ (t.runTimeout fuel now).service.sequence
      rw [r2]; exact hle
    · intro d hd hds
      have := r5 d hd
      rw [hds] at this
      rcases hc with hc | hc
      · exact this.2 hc
      · exact hc this.1
  | add e =>
    obtain ⟨_, a2, _, a4, a5⟩ := doAddTimer_spec t e hInv
    have hkeep : s ∉ seqs t.events → s ∉ seqs (t.doAddTimer e).1.events := by
      intro hn hmem
      rcases List.mem_cons.mp (a5.mem_iff.mp hmem) with e1 | e1
      · omega
      · exact hn e1
    refine ⟨⟨hI2, ?_, ?_⟩, ?_, hkeep, fun now hm => by cases hm⟩
    · show s ≤ (t.doAddTimer e).1.sequence
      rw [a2]; omega
    · rcases hc with hc | hc
      · exact Or.inl (by show s ∈ (t.doAddTimer e).1.trash; rw [a4]; exact hc)
      · exact Or.inr (hkeep hc)
    · intro d hd
      simp [timerService.step] at hd
  | del seq =>
    refine ⟨⟨hI2, hle, ?_⟩, ?_, fun hn => hn, fun now hm => by cases hm⟩
    · rcases hc with hc | hc
      · exact Or.inl (List.mem_append_left _ hc)
      · exact Or.inr hc
    · intro d hd
      simp [timerService.step] at hd
  | done =>
    refine ⟨⟨hI2, hle, hc⟩, ?_, fun hn => hn, fun now hm => by cases hm⟩
    intro d hd
    simp [timerService.step] at hd

theorem Run_cancelled (fuel : Nat) (t : timerService) (msgs : List msg) (s : Int)
    (h : Cancelled s t) :
    Cancelled s (timerService.Run fuel t msgs).service ∧
      (∀ d ∈ (timerService.Run fuel t msgs).launched, d.ev.seq ≠ s) ∧
      (s ∉ seqs t.events → s ∉ seqs (timerService.Run fuel t msgs).service.events) := by
  induction msgs generalizing t with
  | nil =>
    refine ⟨h, ?_, fun hn => hn⟩
    intro d hd
    simp [timerService.Run] at hd
  | cons m ms ih =>
    obtain ⟨c1, c2, c3, _⟩ := step_cancelled t fuel m s h
    by_cases hst : (t.step fuel m).st = status.ok
    · rw [Run_cons_ok fuel t m ms hst]
      obtain ⟨i1, i2, i3⟩ := ih (t.step fuel m).service c1
      refine ⟨i1, ?_, fun hn => i3 (c3 hn)⟩
      intro d hd
      rcases List.mem_append.mp hd with e1 | e1
      · exact c2 d e1
      · exact i2 d e1
    · rw [Run_cons_stop fuel t m ms hst]
      exact ⟨c1, c2, c3⟩

theorem Run_tick_gone (fuel : Nat) (t : timerService) (s : Int) (a : List msg) (now : Int)
    (b : List msg) (h : Cancelled s t) (hok : (timerService.Run fuel t a).st = status.ok) :
    s ∉ seqs (timerService.Run fuel t (a ++ msg.tick now :: b)).service.events := by
  induction a generalizing t with
  | nil =>
    obtain ⟨c1, _, _, c4⟩ := step_cancelled t fuel (msg.tick now) s h
    have hg := c4 now rfl
    rw [List.nil_append]
    by_cases hst : (t.step fuel (msg.tick now)).st = status.ok
    · rw [Run_cons_ok fuel t _ b hst]
      exact (Run_cancelled fuel _ b s c1).2.2 hg
    · rw [Run_cons_stop fuel t _ b hst]
      exact hg
  | cons m ms ih =>
    obtain ⟨c1, _, _, _⟩ := step_cancelled t fuel m s h
    by_cases hst : (t.step fuel m).st = status.ok
    · rw [Run_cons_ok fuel t m ms hst] at hok
      rw [List.cons_append, Run_cons_ok fuel t m _ hst]
      exact ih _ c1 hok
    · rw [Run_cons_stop fuel t m ms hst] at hok
      exact absurd hok hst

/-- C10 (a cancelled timer never fires): in a reachable state with a resident
event of sequence `s`, once the loop has consumed the delete request for `s`,
whatever messages follow, no invocation launched afterwards is for an event
with sequence `s`, and from the first tick consumed onwards no resident event
has sequence `s`. -/
theorem C10_cancelled_never_fires (t : timerService) (ht : Reachable t) (s : Int)
    (hs : s ∈ seqs t.events) (fuel : Nat) (post : List msg) :
    (∀ d ∈ (timerService.Run fuel (t.step fuel (msg.del s)).service post).launched,
      d.ev.seq ≠ s) ∧
    (∀ (a : List msg) (now : Int) (b : List msg), post = a ++ msg.tick now :: b →
      (timerService.Run fuel (t.step fuel (msg.del s)).service a).st = status.ok →
      s ∉ seqs (timerService.Run fuel (t.step fuel (msg.del s)).service post).service.events) := by
  have hInv := Reachable_Inv t ht
  have hc : Cancelled s (t.step fuel (msg.del s)).service := by
    refine ⟨(step_spec t fuel _ hInv).1, hInv.2.2.2 s hs, Or.inl ?_⟩
    show s ∈ t.trash ++ [s]
    simp
  refine ⟨(Run_cancelled fuel _ post s hc).2.1, ?_⟩
  intro a now b hpost hok
  rw [hpost]
  exact Run_tick_gone fuel _ s a now b hc hok

/-! ## `SetAccuracy`, `AddOneshotTimer` and `Register` -/

/-- C18: `SetAccuracy` returns an error exactly when the duration is `≤ 0`;
on error the service is unchanged, and on success the accuracy is the given
duration and every other field is unchanged. -/
theorem C18_set_accuracy (t : timerService) (accuracy : Int) :
    ((t.SetAccuracy accuracy).1.isSome = true ↔ accuracy ≤ 0) ∧
    (accuracy ≤ 0 → (t.SetAccuracy accuracy).2 = t) ∧
    (0 < accuracy → (t.SetAccuracy accuracy).1 = none ∧
      (t.SetAccuracy accuracy).2 = { t with accuracy := accuracy }) := by
  unfold timerService.SetAccuracy
  by_cases h : accuracy ≤ 0
  · rw [if_pos h]
    exact ⟨⟨fun _ => h, fun _ => rfl⟩, fun _ => rfl, fun hp => by omega⟩
  · rw [if_neg h]
    refine ⟨⟨fun hc => ?_, fun hc => absurd hc h⟩, fun hc => absurd hc h, fun _ => ⟨rfl, rfl⟩⟩
    simp at hc

theorem timeSub_of_fits (t u : Int) (h1 : minDuration ≤ t - u) (h2 : t - u ≤ maxDuration) :
    timeSub t u = t - u := by
  unfold timeSub
  rw [if_neg (by omega), if_neg (by omega)]

theorem AddOneshotTimer_forward (t : timerService) (now now2 atTime : Int)
    (handlerName : String) (args : Iface) (h : now ≤ atTime) :
    t.AddOneshotTimer now now2 atTime handlerName args
      = t.AddTimer now2 (timeSub atTime now) false handlerName args := by
  unfold timerService.AddOneshotTimer
  have h2 : ¬ now > atTime := by omega
  rw [if_neg h2]

theorem AddOneshotTimer_saturates (t : timerService) (now now2 atTime : Int)
    (handlerName : String) (args : Iface) (h : maxDuration < atTime - now) :
    t.AddOneshotTimer now now2 atTime handlerName args
      = t.AddTimer now2 maxDuration false handlerName args := by
  have hle : now ≤ atTime := by
    unfold maxDuration at h
    omega
  rw [AddOneshotTimer_forward t now now2 atTime handlerName args hle]
  unfold timeSub
  rw [if_pos h]

/-- C15 as the code has it: `AddOneshotTimer` rejects, with the state
unchanged, every `atTime` strictly before `now`; for every `atTime` at or
after `now` (equality included) whose distance `atTime - now` fits a
`time.Duration` it is `AddTimer` with `repeat = false` and
`interval = atTime - now`. -/
theorem C15_oneshot_guard (t : timerService) (now now2 atTime : Int) (handlerName : String)
    (args : Iface) :
    (atTime < now →
      (t.AddOneshotTimer now now2 atTime handlerName args).1.1 = 0 ∧
      (t.AddOneshotTimer now now2 atTime handlerName args).1.2.isSome = true ∧
      (t.AddOneshotTimer now now2 atTime handlerName args).2 = t) ∧
    (now ≤ atTime → atTime - now ≤ maxDuration →
      t.AddOneshotTimer now now2 atTime handlerName args
        = t.AddTimer now2 (atTime - now) false handlerName args) := by
  constructor
  · intro h
    unfold timerService.AddOneshotTimer
    have h2 : now > atTime := h
    rw [if_pos h2]
    exact ⟨rfl, rfl, rfl⟩
  · intro h hfit
    have hmin : minDuration ≤ atTime - now := by
      unfold minDuration
      omega
    rw [AddOneshotTimer_forward t now now2 atTime handlerName args h,
      timeSub_of_fits atTime now hmin hfit]

/-- C15 as stated fails at `atTime = now`: the call is accepted, returns
sequence 1 with no error and arms an event. -/
theorem C15_counterexample :
    (sampleService.AddOneshotTimer 5 5 5 "CheckTimer1" ⟨"uint64", 7⟩).1 = (1, none) ∧
    (sampleService.AddOneshotTimer 5 5 5 "CheckTimer1" ⟨"uint64", 7⟩).2.events.length = 1 ∧
    (sampleService.AddOneshotTimer 5 5 5 "CheckTimer1" ⟨"uint64", 7⟩).2 ≠ sampleService := by
  decide

/-- C16 as the code has it: `AddTimer` never looks at the type of the
argument; with a registered handler and `interval ≥ 0` it returns no error
and arms an event carrying the argument as given, whatever its type. -/
theorem C16_no_argument_check (t : timerService) (now interval : Int) (isRepeate : Bool)
    (handlerName : String) (args : Iface) (h : timerHandler) (hi : 0 ≤ interval)
    (hn : t.handlers.lookup handlerName = some h) :
    (t.AddTimer now interval isRepeate handlerName args).1.2 = none ∧
    ∃ e ∈ (t.AddTimer now interval isRepeate handlerName args).2.events,
      e.name = handlerName ∧ e.arg = args := by
  refine ⟨congrArg Prod.snd (C6_add_accepted_aux t now interval isRepeate handlerName args h
    hi hn), ?_⟩
  unfold timerService.AddTimer
  rw [newEvent_ok t now interval isRepeate handlerName args h hi hn]
  have hp := (Push_spec t.events
    (event.mk (t.sequence + 1) 0 handlerName args interval isRepeate (now + interval))).2.1
  have hmem : detach (event.mk (t.sequence + 1) 0 handlerName args interval isRepeate
      (now + interval)) ∈ List.map detach (heap.Push t.events
        (event.mk (t.sequence + 1) 0 handlerName args interval isRepeate (now + interval))) :=
    hp.mem_iff.mpr (List.mem_cons_self _ _)
  obtain ⟨e, he, hde⟩ := List.mem_map.mp hmem
  refine ⟨e, he, ?_, ?_⟩
  · exact congrArg event.name hde
  · exact congrArg event.arg hde

/-- C16 as stated fails: `CheckTimer1` is registered with argument type
`uint64`; `AddTimer` with an `int` argument returns sequence 1 with no error
and the event, carrying the `int`, is resident. -/
theorem C16_counterexample :
    sampleService.handlers.lookup "CheckTimer1" = some sampleHandler ∧
    sampleHandler.arg = "uint64" ∧
    (sampleService.AddTimer 0 1000 false "CheckTimer1" ⟨"int", 10001⟩).1 = (1, none) ∧
    (sampleService.AddTimer 0 1000 false "CheckTimer1" ⟨"int", 10001⟩).2.events.map
      (fun e => (e.seq, e.name, e.arg.typ)) = [(1, "CheckTimer1", "int")] := by
  decide

/-- C17, the code at the failing input: `Register` on an object with the
methods `Bad(ctx, int) int` and `CheckTimer1(ctx, uint64) error` returns `nil`
and binds both names, `Bad` included although its result is not an `error`. -/
theorem C17_register_accepts_non_error_result :
    (zeroService.Register "*exampleSvr" sampleMethods).1 = none ∧
    ((zeroService.Register "*exampleSvr" sampleMethods).2.handlers.lookup "Bad").isSome = true ∧
    ((zeroService.Register "*exampleSvr" sampleMethods).2.handlers.lookup
      "CheckTimer1").isSome = true ∧
    sampleMethods.map (fun m => (m.name, m.outs.map goType.name))
      = [("Bad", ["int"]), ("CheckTimer1", ["error"])] := by
  decide

/-! ## Pushing in non-decreasing order of expiry -/

theorem Push_no_swap (q : eventQueue) (x : event) (h : ∀ e ∈ q, e.expire ≤ x.expire) :
    heap.Push q x = q ++ [{ x with index := q.length }] := by
  have hlen : (eventQueue.Push q x).length = q.length + 1 := by simp [eventQueue.Push]
  unfold heap.Push heap.up
  simp only [hlen, Nat.add_sub_cancel]
  rw [upLoop_succ]
  have hc : (q.length - 1) / 2 = q.length ∨
      eventQueue.Less (eventQueue.Push q x) q.length ((q.length - 1) / 2) = false := by
    by_cases h0 : q.length = 0
    · left; omega
    · right
      have hp : (q.length - 1) / 2 < q.length := by omega
      rw [Less_false_iff _ _ _ (by omega) (by omega)]
      have h1 : keyAt (eventQueue.Push q x) ((q.length - 1) / 2) = q[(q.length - 1) / 2].expire := by
        unfold keyAt eventQueue.Push
        rw [List.getElem?_append_left hp, List.getElem?_eq_getElem hp]
      have h2 : keyAt (eventQueue.Push q x) q.length = x.expire := by
        unfold keyAt eventQueue.Push
        simp
      rw [h1, h2]
      exact h _ (List.getElem_mem hp)
  rw [if_pos hc]
  rfl

theorem pushAll_sorted (es : List event) (q : eventQueue)
    (hs : es.Pairwise (fun a b => a.expire ≤ b.expire))
    (hq : ∀ a ∈ q, ∀ b ∈ es, a.expire ≤ b.expire) :
    pushAll q es = q ++ stamp q.length es := by
  induction es generalizing q with
  | nil => simp [pushAll, stamp]
  | cons e es ih =>
    have hp := Push_no_swap q e (fun a ha => hq a ha e (List.mem_cons_self _ _))
    have hs2 := List.pairwise_cons.mp hs
    show pushAll (heap.Push q e) es = _
    rw [hp, ih _ hs2.2]
    · simp [stamp]
    · intro a ha b hb
      rcases List.mem_append.mp ha with h1 | h1
      · exact hq a h1 b (List.mem_cons_of_mem _ hb)
      · simp at h1
        rw [h1]
        exact hs2.1 b hb

theorem stamp_length (k : Nat) (es : List event) : (stamp k es).length = es.length := by
  induction es generalizing k with
  | nil => rfl
  | cons e es ih => simp [stamp, ih]

theorem stamp_map_detach (k : Nat) (es : List event) :
    (stamp k es).map detach = es.map detach := by
  induction es generalizing k with
  | nil => rfl
  | cons e es ih =>
    simp only [stamp, List.map_cons, ih]
    rfl

/-- C19 (earliest first, ties allowed): when `e1 :: rest` is pushed onto the
empty queue in non-decreasing order of `expire`, after each of the pushes the
queue has as many events as were pushed and `e1` sits at index 0; `heap.Pop`
on the full queue returns `e1` and leaves one event fewer; `heap.Remove` at 0
returns `e1` too, leaves exactly the events of `rest`, and the event then at
index 0 is one of `rest`. -/
theorem C19_earliest_first (e1 : event) (rest : List event)
    (hs : (e1 :: rest).Pairwise (fun a b => a.expire ≤ b.expire)) :
    (∀ m, 1 ≤ m → m ≤ rest.length + 1 →
      (pushAll [] ((e1 :: rest).take m))[0]? = some { e1 with index := 0 } ∧
      (pushAll [] ((e1 :: rest).take m)).length = m) ∧
    (∃ q', heap.Pop (pushAll [] (e1 :: rest)) = some (detach e1, q') ∧
      q'.length = rest.length) ∧
    (∃ q', heap.Remove (pushAll [] (e1 :: rest)) 0 = some (detach e1, q') ∧
      q'.length = rest.length ∧ (q'.map detach).Perm (rest.map detach) ∧
      (rest ≠ [] → ∃ e0, q'[0]? = some e0 ∧ detach e0 ∈ rest.map detach ∧
        (detach e1 ∉ rest.map detach → detach e0 ≠ detach e1))) := by
  have hall : pushAll [] (e1 :: rest) = { e1 with index := 0 } :: stamp 1 rest := by
    rw [pushAll_sorted (e1 :: rest) [] hs (fun a ha => by simp at ha)]
    rfl
  have h0 : (pushAll [] (e1 :: rest))[0]? = some { e1 with index := 0 } := by
    rw [hall, List.getElem?_cons_zero]
  have hlen : (pushAll [] (e1 :: rest)).length = rest.length + 1 := by
    rw [hall]; simp [stamp_length]
  have hD : (pushAll [] (e1 :: rest)).map detach = detach e1 :: rest.map detach := by
    rw [hall, List.map_cons, stamp_map_detach]
    rfl
  refine ⟨?_, ?_, ?_⟩
  · intro m hm1 hm2
    obtain ⟨k, hk⟩ : ∃ k, m = k + 1 := ⟨m - 1, by omega⟩
    subst hk
    have hs2 : (e1 :: rest.take k).Pairwise (fun a b => a.expire ≤ b.expire) :=
      hs.sublist ((List.take_sublist k rest).cons₂ e1)
    rw [List.take_succ_cons, pushAll_sorted (e1 :: rest.take k) [] hs2
      (fun a ha => by simp at ha)]
    constructor
    · simp only [List.nil_append, List.length_nil, stamp, List.getElem?_cons_zero]
      rfl
    · simp only [List.nil_append, List.length_nil, stamp_length, List.length_cons,
        List.length_take]
      omega
  · obtain ⟨q', p1, p2, _⟩ := Pop_spec _ _ h0
    exact ⟨q', p1, by omega⟩
  · obtain ⟨q', p1, p2, p3, _⟩ := Remove_spec _ 0 _ h0
    have hperm : (q'.map detach).Perm (rest.map detach) := by
      rw [hD] at p3
      exact List.Perm.cons_inv p3
    refine ⟨q', p1, by omega, hperm, ?_⟩
    intro hne
    have hpos : 0 < q'.length := by
      have : 0 < rest.length := List.length_pos.mpr hne
      omega
    refine ⟨q'[0], List.getElem?_eq_getElem hpos, ?_, ?_⟩
    · exact hperm.mem_iff.mp (List.mem_map_of_mem _ (List.getElem_mem hpos))
    · intro hn heq
      exact hn (heq ▸ hperm.mem_iff.mp (List.mem_map_of_mem _ (List.getElem_mem hpos)))

/-! ## A repeating event with interval 0 -/

theorem scan_fire_repeat (fuel : Nat) (now : Int) (t : timerService) (log : List dispatch)
    (e0 e : event) (q : eventQueue) (h : timerHandler) (h0 : t.events[0]? = some e0)
    (hdue : e0.expire ≤ now) (hpop : heap.Pop t.events = some (e, q))
    (hl : t.handlers.lookup e.name = some h) (hr : e.isRepeat = true) :
    timerService.scan (fuel + 1) now t log
      = timerService.scan fuel now { t with events := heap.Push q (rearm e now) }
          (log ++ [⟨h, e⟩]) := by
  have hexp : ¬ e0.expire > now := by omega
  rw [timerService.scan]
  simp only [h0, if_neg hexp, hpop, hl, hr, if_true]

theorem scan_stuck_step (now : Int) (fuel : Nat) (log : List dispatch) :
    timerService.scan (fuel + 1) now (stuckAt now) log
      = timerService.scan fuel now (stuckAt now)
          (log ++ [⟨sampleHandler, detach (zeroEvent now)⟩]) := by
  have hpush : heap.Push [] (rearm (detach (zeroEvent now)) now) = [zeroEvent now] := by
    simp [heap.Push, eventQueue.Push, heap.up, heap.upLoop, rearm, detach, zeroEvent]
  rw [scan_fire_repeat fuel now (stuckAt now) log (zeroEvent now) (detach (zeroEvent now)) []
    sampleHandler rfl (le_refl _) rfl rfl rfl, hpush]
  rfl

theorem scan_stuck (now : Int) (fuel : Nat) (log : List dispatch) :
    timerService.scan fuel now (stuckAt now) log
      = ⟨stuckAt now, log ++ List.replicate fuel ⟨sampleHandler, detach (zeroEvent now)⟩, [],
          status.unfinished⟩ := by
  induction fuel generalizing log with
  | zero => simp [timerService.scan]
  | succ fuel ih =>
    rw [scan_stuck_step, ih, List.append_assoc]
    congr 2

theorem runTimeout_sampleZero (now : Int) (h5 : 5 ≤ now) (fuel : Nat) :
    sampleZero.runTimeout (fuel + 1) now
      = ⟨stuckAt now,
          ⟨sampleHandler, detach (zeroEvent 5)⟩ ::
            List.replicate fuel ⟨sampleHandler, detach (zeroEvent now)⟩,
          [], status.unfinished⟩ := by
  have hz : sampleZero = stuckAt 5 := by decide
  have hdel : (stuckAt 5).doDelTimer = some (stuckAt 5) := by decide
  have hpush : heap.Push [] (rearm (detach (zeroEvent 5)) now) = [zeroEvent now] := by
    simp [heap.Push, eventQueue.Push, heap.up, heap.upLoop, rearm, detach, zeroEvent]
  unfold timerService.runTimeout
  rw [hz, hdel]
  simp only
  rw [scan_fire_repeat fuel now (stuckAt 5) [] (zeroEvent 5) (detach (zeroEvent 5)) []
    sampleHandler rfl h5 rfl rfl rfl, hpush]
  show timerService.scan fuel now (stuckAt now) _ = _
  rw [scan_stuck]
  rfl

/-- C11, the code at the failing input: `AddTimer(0, true, "CheckTimer1", 7)`
is accepted at time 5, and the scan of any later tick does not end within any
number of iterations; after `n + 1` iterations it has launched the handler of
that one event `n + 1` times. -/
theorem C11_zero_interval_tick_never_ends (now : Int) (h5 : 5 ≤ now) (fuel : Nat) :
    (sampleService.AddTimer 5 0 true "CheckTimer1" ⟨"uint64", 7⟩).1 = (1, none) ∧
    (sampleZero.runTimeout fuel now).st = status.unfinished ∧
    (sampleZero.runTimeout fuel now).launched.length = fuel ∧
    ∀ d ∈ (sampleZero.runTimeout fuel now).launched, d.ev.seq = 1 := by
  refine ⟨by decide, ?_⟩
  cases fuel with
  | zero =>
    have h0 : sampleZero.runTimeout 0 now = ⟨sampleZero, [], [], status.unfinished⟩ := by
      have hz : sampleZero = stuckAt 5 := by decide
      have hdel : (stuckAt 5).doDelTimer = some (stuckAt 5) := by decide
      unfold timerService.runTimeout
      rw [hz, hdel]
      rfl
    rw [h0]
    exact ⟨rfl, rfl, fun d hd => by simp at hd⟩
  | succ fuel =>
    rw [runTimeout_sampleZero now h5 fuel]
    refine ⟨rfl, by simp, ?_⟩
    intro d hd
    rcases List.mem_cons.mp hd with e1 | e1
    · rw [e1]; rfl
    · rw [List.eq_of_mem_replicate e1]; rfl

/-! ## One firing of a repeating event -/

/-- C14 as the code has it: when the loop of `runTimeout` pops a due
repeating event whose handler resolves, it launches the handler and continues
with the event pushed back, the same in sequence, name, argument, interval
and repeat flag, with `expire = now + interval`; that expiry is strictly
later than the one before the firing whenever `interval > 0`. -/
theorem C14_repeat_rearm (t : timerService) (now : Int) (fuel : Nat) (log : List dispatch)
    (e0 : event) (h : timerHandler) (h0 : t.events[0]? = some e0) (hdue : e0.expire ≤ now)
    (hl : t.handlers.lookup e0.name = some h) (hr : e0.isRepeat = true) :
    ∃ q, heap.Pop t.events = some (detach e0, q) ∧
      timerService.scan (fuel + 1) now t log
        = timerService.scan fuel now
            { t with events := heap.Push q (rearm (detach e0) now) }
            (log ++ [⟨h, detach e0⟩]) ∧
      ((heap.Push q (rearm (detach e0) now)).map detach).Perm
        (rearm (detach e0) now :: q.map detach) ∧
      (rearm (detach e0) now).seq = e0.seq ∧ (rearm (detach e0) now).name = e0.name ∧
      (rearm (detach e0) now).arg = e0.arg ∧
      (rearm (detach e0) now).interval = e0.interval ∧
      (rearm (detach e0) now).isRepeat = e0.isRepeat ∧
      (rearm (detach e0) now).expire = now + e0.interval ∧
      (0 < e0.interval → e0.expire < (rearm (detach e0) now).expire) := by
  obtain ⟨q, p1, _⟩ := Pop_spec t.events e0 h0
  refine ⟨q, p1, scan_fire_repeat fuel now t log e0 (detach e0) q h h0 hdue p1 hl hr,
    (Push_spec q (rearm (detach e0) now)).2.1, rfl, rfl, rfl, rfl, rfl, rfl, ?_⟩
  intro hpos
  show e0.expire < now + e0.interval
  omega

/-- C14 as stated fails for interval 0: in the tick sampled at 9 the
repeating event of `sampleZero` fires a first time and is pushed back with
expiry 9, then fires a second time and is pushed back with expiry 9 again,
not a later one. -/
theorem C14_counterexample :
    sampleZero.events.map (fun e => (e.seq, e.isRepeat, e.interval, e.expire))
      = [(1, true, 0, 5)] ∧
    (sampleZero.runTimeout 1 9).launched.map (fun d => d.ev.seq) = [1] ∧
    (sampleZero.runTimeout 1 9).service.events.map (fun e => (e.seq, e.expire)) = [(1, 9)] ∧
    (sampleZero.runTimeout 2 9).launched.map (fun d => d.ev.seq) = [1, 1] ∧
    (sampleZero.runTimeout 2 9).service.events.map (fun e => (e.seq, e.expire)) = [(1, 9)] ∧
    ¬ ((9 : Int) < 9) := by
  decide

/-! ## The scan of one tick, iteration by iteration -/

theorem scan_idle (fuel : Nat) (now : Int) (t : timerService) (log : List dispatch)
    (h : t.events[0]? = none ∨ ∃ e0, t.events[0]? = some e0 ∧ e0.expire > now) :
    timerService.scan (fuel + 1) now t log = ⟨t, log, [], status.ok⟩ := by
  rw [timerService.scan]
  rcases h with h | ⟨e0, h0, hexp⟩
  · simp only [h]
  · simp only [h0, if_pos hexp]

theorem scan_drop (fuel : Nat) (now : Int) (t : timerService) (log : List dispatch)
    (e0 e : event) (q : eventQueue) (h0 : t.events[0]? = some e0)
    (hdue : e0.expire ≤ now) (hpop : heap.Pop t.events = some (e, q))
    (hl : t.handlers.lookup e.name = none) :
    timerService.scan (fuel + 1) now t log
      = timerService.scan fuel now { t with events := q } log := by
  have hexp : ¬ e0.expire > now := by omega
  rw [timerService.scan]
  simp only [h0, if_neg hexp, hpop, hl]

theorem scan_fire_once (fuel : Nat) (now : Int) (t : timerService) (log : List dispatch)
    (e0 e : event) (q : eventQueue) (h : timerHandler) (h0 : t.events[0]? = some e0)
    (hdue : e0.expire ≤ now) (hpop : heap.Pop t.events = some (e, q))
    (hl : t.handlers.lookup e.name = some h) (hr : e.isRepeat = false) :
    timerService.scan (fuel + 1) now t log
      = timerService.scan fuel now { t with events := q } (log ++ [⟨h, e⟩]) := by
  have hexp : ¬ e0.expire > now := by omega
  rw [timerService.scan]
  simp only [h0, if_neg hexp, hpop, hl, hr]
  rfl

theorem filter_detach (P : event → Bool) (hP : ∀ e, P (detach e) = P e) (q : eventQueue) :
    (q.map detach).filter P = (q.filter P).map detach := by
  rw [List.filter_map]
  congr 1
  apply List.filter_congr
  intro e _
  exact hP e

theorem filter_perm_cons_pos (P : event → Bool) (a : event) (l L : List event)
    (hp : (a :: l).Perm L) (ha : P a = true) : (L.filter P).Perm (a :: l.filter P) := by
  have := (hp.filter P).symm
  rw [List.filter_cons_of_pos ha] at this
  exact this

theorem filter_perm_cons_neg (P : event → Bool) (a : event) (l L : List event)
    (hp : (a :: l).Perm L) (ha : P a = false) : (L.filter P).Perm (l.filter P) := by
  have := (hp.filter P).symm
  rw [List.filter_cons_of_neg (by simp [ha])] at this
  exact this

theorem scan_exact (fuel : Nat) (now : Int) (t : timerService) (log : List dispatch)
    (hH : heapOrdered t.events)
    (hpos : ∀ x ∈ t.events.map detach, x.isRepeat = true → x.expire ≤ now → 0 < x.interval)
    (hf : ((t.events.map detach).filter (due now)).length < fuel) :
    (timerService.scan fuel now t log).st = status.ok ∧
    ∃ new, (timerService.scan fuel now t log).launched = log ++ new ∧
      (new.map dispatch.ev).Perm
        ((t.events.map detach).filter (fun x => due now x && t.resolves x)) ∧
      (∀ d ∈ new, t.handlers.lookup d.ev.name = some d.handler) ∧
      ((timerService.scan fuel now t log).service.events.map detach).Perm
        ((t.events.map detach).filter (fun x => !due now x) ++
          ((t.events.map detach).filter
            (fun x => due now x && t.resolves x && x.isRepeat)).map (fun x => rearm x now)) := by
  induction fuel generalizing t log with
  | zero => omega
  | succ fuel ih =>
    cases h0 : t.events[0]? with
    | none =>
      have hnil : t.events = [] := by
        have := List.getElem?_eq_none_iff.mp h0
        exact List.length_eq_zero.mp (by omega)
      rw [scan_idle fuel now t log (Or.inl h0)]
      refine ⟨rfl, [], by simp, ?_, by simp, ?_⟩
      · rw [hnil]; simp
      · show (t.events.map detach).Perm _
        rw [hnil]; simp
    | some e0 =>
      by_cases hexp : e0.expire > now
      · rw [scan_idle fuel now t log (Or.inr ⟨e0, h0, hexp⟩)]
        have hall : ∀ x ∈ t.events.map detach, due now x = false := by
          intro x hx
          obtain ⟨e, he, hex⟩ := List.mem_map.mp hx
          have := heapOrdered_min t.events hH e0 e h0 he
          rw [← hex]
          show decide (e.expire ≤ now) = false
          rw [decide_eq_false_iff_not]
          omega
        have f1 : (t.events.map detach).filter (fun x => due now x && t.resolves x) = [] :=
          List.filter_eq_nil_iff.mpr (fun x hx => by simp [hall x hx])
        have f2 : (t.events.map detach).filter (fun x => !due now x) = t.events.map detach :=
          List.filter_eq_self.mpr (fun x hx => by simp [hall x hx])
        have f3 : (t.events.map detach).filter
            (fun x => due now x && t.resolves x && x.isRepeat) = [] :=
          List.filter_eq_nil_iff.mpr (fun x hx => by simp [hall x hx])
        refine ⟨rfl, [], by simp, ?_, by simp, ?_⟩
        · rw [f1]; exact List.Perm.refl _
        · show (t.events.map detach).Perm _
          rw [f2, f3]; simp
      · have hdue : e0.expire ≤ now := by omega
        obtain ⟨q, p1, _, p3, _, p5⟩ := Pop_spec t.events e0 h0
        have hd0 : due now (detach e0) = true := by
          show decide (e0.expire ≤ now) = true
          exact decide_eq_true hdue
        have hcnt : ((q.map detach).filter (due now)).length < fuel := by
          have := (filter_perm_cons_pos (due now) _ _ _ p3 hd0).length_eq
          rw [List.length_cons] at this
          omega
        have hposq : ∀ x ∈ q.map detach, x.isRepeat = true → x.expire ≤ now →
            0 < x.interval :=
          fun x hx => hpos x (p3.mem_iff.mp (List.mem_cons_of_mem _ hx))
        have hndF : (!due now (detach e0)) = false := by rw [hd0]; rfl
        cases hl : t.handlers.lookup (detach e0).name with
        | none =>
          rw [scan_drop fuel now t log e0 (detach e0) q h0 hdue p1 hl]
          obtain ⟨i1, new, i2, i3, i4, i5⟩ := ih { t with events := q } log (p5 hH) hposq hcnt
          have hres : t.resolves (detach e0) = false := by
            unfold timerService.resolves
            rw [hl]; rfl
          have hdrF : (due now (detach e0) && t.resolves (detach e0)) = false := by
            rw [hres]; simp
          have hdrrF : (due now (detach e0) && t.resolves (detach e0)
              && (detach e0).isRepeat) = false := by
            rw [hres]; simp
          refine ⟨i1, new, i2, ?_, i4, ?_⟩
          · exact i3.trans (filter_perm_cons_neg (fun x => due now x && t.resolves x)
              (detach e0) (q.map detach) (t.events.map detach) p3 hdrF).symm
          · refine i5.trans ?_
            exact List.Perm.append
              (filter_perm_cons_neg (fun x => !due now x) (detach e0) (q.map detach)
                (t.events.map detach) p3 hndF).symm
              ((filter_perm_cons_neg (fun x => due now x && t.resolves x && x.isRepeat)
                (detach e0) (q.map detach) (t.events.map detach) p3 hdrrF).symm.map _)
        | some h =>
          have hres : t.resolves (detach e0) = true := by
            unfold timerService.resolves
            rw [hl]; rfl
          have hdrT : (due now (detach e0) && t.resolves (detach e0)) = true := by
            rw [hres, hd0]; rfl
          by_cases hr : (detach e0).isRepeat = true
          · rw [scan_fire_repeat fuel now t log e0 (detach e0) q h h0 hdue p1 hl hr]
            have hint : 0 < (detach e0).interval :=
              hpos _ (p3.mem_iff.mp (List.mem_cons_self _ _)) hr hdue
            have hrd : due now (rearm (detach e0) now) = false := by
              show decide (now + (detach e0).interval ≤ now) = false
              rw [decide_eq_false_iff_not]
              omega
            have hrnd : (!due now (rearm (detach e0) now)) = true := by rw [hrd]; rfl
            have hrdrF : (due now (rearm (detach e0) now) && t.resolves (rearm (detach e0) now))
                = false := by rw [hrd]; rfl
            have hrdrrF : (due now (rearm (detach e0) now) && t.resolves (rearm (detach e0) now)
                && (rearm (detach e0) now).isRepeat) = false := by rw [hrd]; rfl
            have hdrrT : (due now (detach e0) && t.resolves (detach e0)
                && (detach e0).isRepeat) = true := by rw [hres, hd0, hr]; rfl
            have hp := Push_spec q (rearm (detach e0) now)
            have hp2 : (rearm (detach e0) now :: q.map detach).Perm
                ((heap.Push q (rearm (detach e0) now)).map detach) := hp.2.1.symm
            have hcnt2 : (((heap.Push q (rearm (detach e0) now)).map detach).filter
                (due now)).length < fuel := by
              have := (filter_perm_cons_neg (due now) _ _ _ hp2 hrd).length_eq
              omega
            have hpos2 : ∀ x ∈ (heap.Push q (rearm (detach e0) now)).map detach,
                x.isRepeat = true → x.expire ≤ now → 0 < x.interval := by
              intro x hx hxr hxd
              rcases List.mem_cons.mp (hp2.mem_iff.mpr hx) with e1 | e1
              · rw [e1] at hxd
                have : now + (detach e0).interval ≤ now := hxd
                omega
              · exact hposq x e1 hxr hxd
            obtain ⟨i1, new, i2, i3, i4, i5⟩ :=
              ih { t with events := heap.Push q (rearm (detach e0) now) }
                (log ++ [⟨h, detach e0⟩]) (hp.2.2.2 (p5 hH)) hpos2 hcnt2
            refine ⟨i1, ⟨h, detach e0⟩ :: new, ?_, ?_, ?_, ?_⟩
            · rw [i2]; simp
            · rw [List.map_cons]
              refine List.Perm.trans ?_
                (filter_perm_cons_pos (fun x => due now x && t.resolves x) (detach e0)
                  (q.map detach) (t.events.map detach) p3 hdrT).symm
              exact List.Perm.cons _
                (i3.trans (filter_perm_cons_neg (fun x => due now x && t.resolves x)
                  (rearm (detach e0) now) (q.map detach) _ hp2 hrdrF))
            · intro d hd
              rcases List.mem_cons.mp hd with e1 | e1
              · rw [e1]; exact hl
              · exact i4 d e1
            · refine i5.trans ?_
              have a1 := filter_perm_cons_pos (fun x => !due now x) (rearm (detach e0) now)
                (q.map detach) _ hp2 hrnd
              have a2 := filter_perm_cons_neg
                (fun x => due now x && t.resolves x && x.isRepeat) (rearm (detach e0) now)
                (q.map detach) _ hp2 hrdrrF
              have b1 := filter_perm_cons_neg (fun x => !due now x) (detach e0)
                (q.map detach) (t.events.map detach) p3 hndF
              have b2 := filter_perm_cons_pos
                (fun x => due now x && t.resolves x && x.isRepeat) (detach e0)
                (q.map detach) (t.events.map detach) p3 hdrrT
              refine (List.Perm.append a1 (a2.map (fun x => rearm x now))).trans ?_
              refine List.Perm.trans ?_
                (List.Perm.append b1 (b2.map (fun x => rearm x now))).symm
              rw [List.map_cons]
              exact (List.perm_middle).symm
          · have hr2 : (detach e0).isRepeat = false := by
              cases hb : (detach e0).isRepeat
              · rfl
              · exact absurd hb hr
            have hdrrF : (due now (detach e0) && t.resolves (detach e0)
                && (detach e0).isRepeat) = false := by rw [hr2]; simp
            rw [scan_fire_once fuel now t log e0 (detach e0) q h h0 hdue p1 hl hr2]
            obtain ⟨i1, new, i2, i3, i4, i5⟩ :=
              ih { t with events := q } (log ++ [⟨h, detach e0⟩]) (p5 hH) hposq hcnt
            refine ⟨i1, ⟨h, detach e0⟩ :: new, ?_, ?_, ?_, ?_⟩
            · rw [i2]; simp
            · rw [List.map_cons]
              refine List.Perm.trans ?_
                (filter_perm_cons_pos (fun x => due now x && t.resolves x) (detach e0)
                  (q.map detach) (t.events.map detach) p3 hdrT).symm
              exact List.Perm.cons _ i3
            · intro d hd
              rcases List.mem_cons.mp hd with e1 | e1
              · rw [e1]; exact hl
              · exact i4 d e1
            · refine i5.trans ?_
              exact List.Perm.append
                (filter_perm_cons_neg (fun x => !due now x) (detach e0) (q.map detach)
                  (t.events.map detach) p3 hndF).symm
                ((filter_perm_cons_neg (fun x => due now x && t.resolves x && x.isRepeat)
                  (detach e0) (q.map detach) (t.events.map detach) p3 hdrrF).symm.map _)

/-! ## One whole tick -/

theorem seq_inj (q : eventQueue) (hN : (seqs q).Nodup) (a b : event) (ha : a ∈ q)
    (hb : b ∈ q) (h : a.seq = b.seq) : a = b :=
  List.inj_on_of_nodup_map hN ha hb h

theorem runTimeout_exact (t : timerService) (now : Int) (hInv : Inv t)
    (hpos : ∀ e ∈ t.events, e.isRepeat = true → e.expire ≤ now → 0 < e.interval) :
    ∃ t1, t.doDelTimer = some t1 ∧ Inv t1 ∧ t1.sequence = t.sequence ∧
      (∀ x ∈ seqs t1.events, x ∈ seqs t.events) ∧
      (∀ e ∈ t1.events, e.isRepeat = true → e.expire ≤ now → 0 < e.interval) ∧
      ∀ fuel, t1.events.length < fuel →
        (t.runTimeout fuel now).st = status.ok ∧
        ((t.runTimeout fuel now).launched.map dispatch.ev).Perm
          ((t1.events.filter (fun e => due now e && t.resolves e)).map detach) ∧
        (∀ d ∈ (t.runTimeout fuel now).launched,
          t.handlers.lookup d.ev.name = some d.handler) ∧
        ((t.runTimeout fuel now).service.events.map detach).Perm
          ((t1.events.filter (fun e => !due now e)).map detach ++
            (t1.events.filter (fun e => due now e && t.resolves e && e.isRepeat)).map
              (fun e => rearm (detach e) now)) := by
  obtain ⟨h1, h2, h3, h4⟩ := hInv
  obtain ⟨q1, p1, p2, p3, p4, p5, _⟩ := purge_spec t.events t.trash h2 h3
  have hmem : ∀ e ∈ q1, ∃ e' ∈ t.events, detach e' = detach e := by
    intro e he
    have hx := p2.mem_iff.mp (List.mem_map_of_mem detach he)
    obtain ⟨e', he', hee⟩ := List.mem_map.mp hx
    exact ⟨e', (List.mem_filter.mp he').1, hee⟩
  have hsub : ∀ x ∈ seqs q1, x ∈ seqs t.events := by
    intro x hx
    obtain ⟨e, he, hex⟩ := List.mem_map.mp hx
    obtain ⟨e', he', hee⟩ := hmem e he
    have hseq : e'.seq = e.seq := by
      have := congrArg (fun x : event => x.seq) hee
      exact this
    rw [← hex, ← hseq]
    exact List.mem_map_of_mem _ he'
  have hpos1 : ∀ e ∈ q1, e.isRepeat = true → e.expire ≤ now → 0 < e.interval := by
    intro e he hr hd
    obtain ⟨e', he', hee⟩ := hmem e he
    have a1 : e'.isRepeat = e.isRepeat := by
      have := congrArg (fun x : event => x.isRepeat) hee
      exact this
    have a2 : e'.expire = e.expire := by
      have := congrArg (fun x : event => x.expire) hee
      exact this
    have a3 : e'.interval = e.interval := by
      have := congrArg (fun x : event => x.interval) hee
      exact this
    have := hpos e' he' (by rw [a1]; exact hr) (by rw [a2]; exact hd)
    omega
  have hdel : t.doDelTimer = some { t with events := q1, trash := [] } := by
    unfold timerService.doDelTimer
    rw [p1]
  refine ⟨{ t with events := q1, trash := [] }, hdel,
    ⟨p5 h1, p3, p4, fun x hx => h4 x (hsub x hx)⟩, rfl, hsub, hpos1, ?_⟩
  intro fuel hfuel
  have hposD : ∀ x ∈ q1.map detach, x.isRepeat = true → x.expire ≤ now → 0 < x.interval := by
    intro x hx
    obtain ⟨e, he, hex⟩ := List.mem_map.mp hx
    rw [← hex]
    exact hpos1 e he
  have hcnt : ((q1.map detach).filter (due now)).length < fuel := by
    have := List.length_filter_le (due now) (q1.map detach)
    rw [List.length_map] at this
    have hf2 : q1.length < fuel := hfuel
    omega
  obtain ⟨i1, new, i2, i3, i4, i5⟩ :=
    scan_exact fuel now { t with events := q1, trash := [] } [] (p5 h1) hposD hcnt
  have hrun : t.runTimeout fuel now
      = timerService.scan fuel now { t with events := q1, trash := [] } [] := by
    unfold timerService.runTimeout
    rw [hdel]
  rw [hrun]
  rw [List.nil_append] at i2
  refine ⟨i1, ?_, ?_, ?_⟩
  · rw [i2]
    have := filter_detach (fun x => due now x && t.resolves x) (fun _ => rfl) q1
    rw [← this]
    exact i3
  · rw [i2]
    exact i4
  · have e1 := filter_detach (fun x => !due now x) (fun _ => rfl) q1
    have e2 := filter_detach (fun x => due now x && t.resolves x && x.isRepeat)
      (fun _ => rfl) q1
    have e3 : (q1.filter (fun e => due now e && t.resolves e && e.isRepeat)).map
        (fun e => rearm (detach e) now)
        = ((q1.map detach).filter
            (fun x => due now x && t.resolves x && x.isRepeat)).map (fun x => rearm x now) := by
      rw [e2, List.map_map]
      rfl
    show (List.map detach _).Perm
      ((q1.filter (fun e => !due now e)).map detach ++
        (q1.filter (fun e => due now e && t.resolves e && e.isRepeat)).map
          (fun e => rearm (detach e) now))
    rw [e3, ← e1]
    exact i5

/-- C12 (dispatch exactness): in a state satisfying the loop invariant whose
due repeating events all have `interval > 0`, the purge pass succeeds and,
with enough iterations allowed (more than the number of resident events), the
tick finishes and launches exactly the events that are resident after the
purge, have `expire ≤ now` and whose name resolves: the same multiset, each
with its own fields (name and argument included) and the handler bound to its
name, no sequence twice, and nothing with `expire > now`. -/
theorem C12_dispatch_exact (t : timerService) (now : Int) (hInv : Inv t)
    (hpos : ∀ e ∈ t.events, e.isRepeat = true → e.expire ≤ now → 0 < e.interval) :
    ∃ t1, t.doDelTimer = some t1 ∧ ∀ fuel, t1.events.length < fuel →
      (t.runTimeout fuel now).st = status.ok ∧
      ((t.runTimeout fuel now).launched.map dispatch.ev).Perm
        ((t1.events.filter (fun e => due now e && t.resolves e)).map detach) ∧
      (∀ d ∈ (t.runTimeout fuel now).launched,
        t.handlers.lookup d.ev.name = some d.handler ∧ d.ev.expire ≤ now) ∧
      ((t.runTimeout fuel now).launched.map (fun d => d.ev.seq)).Nodup := by
  obtain ⟨t1, r1, r2, _, _, _, r6⟩ := runTimeout_exact t now hInv hpos
  refine ⟨t1, r1, fun fuel hfuel => ?_⟩
  obtain ⟨s1, s2, s3, _⟩ := r6 fuel hfuel
  refine ⟨s1, s2, fun d hd => ⟨s3 d hd, ?_⟩, ?_⟩
  · have hmem := s2.mem_iff.mp (List.mem_map_of_mem dispatch.ev hd)
    obtain ⟨e, he, hed⟩ := List.mem_map.mp hmem
    have hp := (List.mem_filter.mp he).2
    have hdue : due now e = true := by
      cases hb : due now e
      · rw [hb] at hp; simp at hp
      · rfl
    rw [← hed]
    show e.expire ≤ now
    exact of_decide_eq_true hdue
  · have h1 : ((t.runTimeout fuel now).launched.map (fun d => d.ev.seq))
        = ((t.runTimeout fuel now).launched.map dispatch.ev).map event.seq := by
      rw [List.map_map]; rfl
    rw [h1, (s2.map event.seq).nodup_iff, seqs_map_detach]
    exact r2.2.2.1.sublist ((List.filter_sublist _).map event.seq)

/-- C13 (queue after a tick): under the same conditions, after the tick the
resident events are exactly the purge survivors with `expire > now`,
unchanged, together with the due repeating events whose handler resolves,
re-armed to `now + interval`; no due non-repeating event is resident any
more, no resident event has `expire ≤ now`, and a due one-shot event whose
handler resolves is launched exactly once in this tick and never again,
whatever messages follow. -/
theorem C13_queue_after_tick (t : timerService) (now : Int) (hInv : Inv t)
    (hpos : ∀ e ∈ t.events, e.isRepeat = true → e.expire ≤ now → 0 < e.interval) :
    ∃ t1, t.doDelTimer = some t1 ∧ ∀ fuel, t1.events.length < fuel →
      ((t.runTimeout fuel now).service.events.map detach).Perm
        ((t1.events.filter (fun e => !due now e)).map detach ++
          (t1.events.filter (fun e => due now e && t.resolves e && e.isRepeat)).map
            (fun e => rearm (detach e) now)) ∧
      (∀ e ∈ t1.events, due now e = true → e.isRepeat = false →
        e.seq ∉ seqs (t.runTimeout fuel now).service.events) ∧
      (∀ e ∈ (t.runTimeout fuel now).service.events, now < e.expire) ∧
      (∀ e ∈ t1.events, due now e = true → e.isRepeat = false → t.resolves e = true →
        ((t.runTimeout fuel now).launched.map (fun d => d.ev.seq)).count e.seq = 1 ∧
        ∀ (fuel2 : Nat) (msgs : List msg),
          ∀ d ∈ (timerService.Run fuel2 (t.runTimeout fuel now).service msgs).launched,
            d.ev.seq ≠ e.seq) := by
  obtain ⟨t1, r1, r2, r3, r4, r5, r6⟩ := runTimeout_exact t now hInv hpos
  refine ⟨t1, r1, fun fuel hfuel => ?_⟩
  obtain ⟨_, s2, _, s4⟩ := r6 fuel hfuel
  have hgone : ∀ e ∈ t1.events, due now e = true → e.isRepeat = false →
      e.seq ∉ seqs (t.runTimeout fuel now).service.events := by
    intro e he hd hr hmem
    rw [← seqs_map_detach] at hmem
    obtain ⟨x, hx, hxs⟩ := List.mem_map.mp hmem
    rcases List.mem_append.mp (s4.mem_iff.mp hx) with h1 | h1
    · obtain ⟨e', he', hee⟩ := List.mem_map.mp h1
      have hf := List.mem_filter.mp he'
      have hs : e'.seq = e.seq := by rw [← hxs, ← hee]; rfl
      have := seq_inj t1.events r2.2.2.1 e' e hf.1 he hs
      rw [this, hd] at hf
      simp at hf
    · obtain ⟨e', he', hee⟩ := List.mem_map.mp h1
      have hf := List.mem_filter.mp he'
      have hs : e'.seq = e.seq := by rw [← hxs, ← hee]; rfl
      have := seq_inj t1.events r2.2.2.1 e' e hf.1 he hs
      rw [this, hr] at hf
      simp at hf
  refine ⟨s4, hgone, ?_, ?_⟩
  · intro e he
    have hx := s4.mem_iff.mp (List.mem_map_of_mem detach he)
    show now < (detach e).expire
    rcases List.mem_append.mp hx with h1 | h1
    · obtain ⟨e', he', hee⟩ := List.mem_map.mp h1
      have hf := (List.mem_filter.mp he').2
      have hnd : due now e' = false := by
        cases hb : due now e'
        · rfl
        · rw [hb] at hf; simp at hf
      have hlt : ¬ e'.expire ≤ now := of_decide_eq_false hnd
      rw [← hee]
      show now < e'.expire
      omega
    · obtain ⟨e', he', hee⟩ := List.mem_map.mp h1
      have hf := List.mem_filter.mp he'
      have hb : (due now e' && t.resolves e' && e'.isRepeat) = true := hf.2
      simp only [Bool.and_eq_true] at hb
      have hint := r5 e' hf.1 hb.2 (of_decide_eq_true hb.1.1)
      rw [← hee]
      show now < now + e'.interval
      omega
  · intro e he hd hr hres
    have hin : detach e ∈ (t1.events.filter (fun e => due now e && t.resolves e)).map detach := by
      apply List.mem_map_of_mem
      rw [List.mem_filter]
      exact ⟨he, by rw [hd, hres]; rfl⟩
    have hl : e.seq ∈ (t.runTimeout fuel now).launched.map (fun d => d.ev.seq) := by
      have h1 : ((t.runTimeout fuel now).launched.map (fun d => d.ev.seq))
          = ((t.runTimeout fuel now).launched.map dispatch.ev).map event.seq := by
        rw [List.map_map]; rfl
      rw [h1]
      show (detach e).seq ∈ _
      exact List.mem_map_of_mem event.seq (s2.mem_iff.mpr hin)
    have hnd : ((t.runTimeout fuel now).launched.map (fun d => d.ev.seq)).Nodup := by
      have h1 : ((t.runTimeout fuel now).launched.map (fun d => d.ev.seq))
          = ((t.runTimeout fuel now).launched.map dispatch.ev).map event.seq := by
        rw [List.map_map]; rfl
      rw [h1, (s2.map event.seq).nodup_iff, seqs_map_detach]
      exact r2.2.2.1.sublist ((List.filter_sublist _).map event.seq)
    refine ⟨List.count_eq_one_of_mem hnd hl, ?_⟩
    intro fuel2 msgs
    obtain ⟨q1, q2, _⟩ := runTimeout_spec t fuel now hInv
    have hc : Cancelled e.seq (t.runTimeout fuel now).service := by
      refine ⟨q1, ?_, Or.inr (hgone e he hd hr)⟩
      rw [q2]
      exact hInv.2.2.2 _ (r4 _ (List.mem_map_of_mem _ he))
    exact (Run_cancelled fuel2 _ msgs e.seq hc).2.1

/-! ## Every resident event resolves -/

theorem registerMethod_keeps (receiver : String) (hs : List (String × timerHandler))
    (m : goMethod) (n : String) (h : (hs.lookup n).isSome = true) :
    ((registerMethod receiver hs m).lookup n).isSome = true := by
  unfold registerMethod
  by_cases h1 : (hs.lookup m.name).isSome = true
  · rw [if_pos h1]; exact h
  · rw [if_neg h1]
    by_cases h2 : m.ins.length ≠ 3
    · rw [if_pos h2]; exact h
    · rw [if_neg h2]
      by_cases h3 : m.outs.length ≠ 1
      · rw [if_pos h3]; exact h
      · rw [if_neg h3]
        cases m.ins[1]? with
        | none => exact h
        | some ctxType =>
          cases m.ins[2]? with
          | none => exact h
          | some argsType =>
            simp only
            by_cases h4 : ctxType.implementsContext = false
            · rw [if_pos h4]; exact h
            · rw [if_neg h4, List.lookup_cons]
              cases n == m.name
              · exact h
              · rfl

theorem foldl_registerMethod_keeps (receiver : String) (ms : List goMethod)
    (hs : List (String × timerHandler)) (n : String) (h : (hs.lookup n).isSome = true) :
    ((ms.foldl (registerMethod receiver) hs).lookup n).isSome = true := by
  induction ms generalizing hs with
  | nil => exact h
  | cons m ms ih => exact ih _ (registerMethod_keeps receiver hs m n h)

theorem scan_names (P : String → Prop) (fuel : Nat) (now : Int) (t : timerService)
    (log : List dispatch) (h : ∀ e ∈ t.events, P e.name) :
    ∀ e ∈ (timerService.scan fuel now t log).service.events, P e.name := by
  induction fuel generalizing t log with
  | zero => exact h
  | succ fuel ih =>
    cases h0 : t.events[0]? with
    | none => rw [scan_idle fuel now t log (Or.inl h0)]; exact h
    | some e0 =>
      by_cases hexp : e0.expire > now
      · rw [scan_idle fuel now t log (Or.inr ⟨e0, h0, hexp⟩)]; exact h
      · have hdue : e0.expire ≤ now := by omega
        obtain ⟨q, p1, _, p3, _⟩ := Pop_spec t.events e0 h0
        have hname : ∀ x ∈ t.events.map detach, P x.name := by
          intro x hx
          obtain ⟨e, he, hex⟩ := List.mem_map.mp hx
          rw [← hex]
          exact h e he
        have hq : ∀ e ∈ q, P e.name := fun e he =>
          hname (detach e) (p3.mem_iff.mp (List.mem_cons_of_mem _ (List.mem_map_of_mem _ he)))
        have he0 : P (detach e0).name := hname _ (p3.mem_iff.mp (List.mem_cons_self _ _))
        cases hl : t.handlers.lookup (detach e0).name with
        | none =>
          rw [scan_drop fuel now t log e0 (detach e0) q h0 hdue p1 hl]
          exact ih _ _ hq
        | some hd =>
          by_cases hr : (detach e0).isRepeat = true
          · rw [scan_fire_repeat fuel now t log e0 (detach e0) q hd h0 hdue p1 hl hr]
            apply ih
            intro e he
            have hp := (Push_spec q (rearm (detach e0) now)).2.1
            rcases List.mem_cons.mp (hp.mem_iff.mp (List.mem_map_of_mem detach he)) with e1 | e1
            · have : e.name = (detach e0).name := by
                have := congrArg (fun x : event => x.name) e1
                exact this
              rw [this]; exact he0
            · obtain ⟨e', he', hee⟩ := List.mem_map.mp e1
              have : e'.name = e.name := by
                have := congrArg (fun x : event => x.name) hee
                exact this
              rw [← this]; exact hq e' he'
          · have hr2 : (detach e0).isRepeat = false := by
              cases hb : (detach e0).isRepeat
              · rfl
              · exact absurd hb hr
            rw [scan_fire_once fuel now t log e0 (detach e0) q hd h0 hdue p1 hl hr2]
            exact ih _ _ hq

theorem scan_no_drop (fuel : Nat) (now : Int) (t : timerService) (log : List dispatch)
    (h : ∀ e ∈ t.events, t.resolves e = true) :
    ∃ new, (timerService.scan fuel now t log).launched = log ++ new ∧
      ∀ s ∈ seqs t.events,
        s ∈ seqs (timerService.scan fuel now t log).service.events ∨
          ∃ d ∈ new, d.ev.seq = s := by
  induction fuel generalizing t log with
  | zero => exact ⟨[], by simp [timerService.scan], fun s hs => Or.inl hs⟩
  | succ fuel ih =>
    cases h0 : t.events[0]? with
    | none =>
      rw [scan_idle fuel now t log (Or.inl h0)]
      exact ⟨[], by simp, fun s hs => Or.inl hs⟩
    | some e0 =>
      by_cases hexp : e0.expire > now
      · rw [scan_idle fuel now t log (Or.inr ⟨e0, h0, hexp⟩)]
        exact ⟨[], by simp, fun s hs => Or.inl hs⟩
      · have hdue : e0.expire ≤ now := by omega
        obtain ⟨q, p1, _, p3, _⟩ := Pop_spec t.events e0 h0
        have hsq := seqs_perm_cons e0 q t.events p3
        have hres : ∀ x ∈ t.events.map detach, t.resolves x = true := by
          intro x hx
          obtain ⟨e, he, hex⟩ := List.mem_map.mp hx
          rw [← hex]
          exact h e he
        have hq : ∀ e ∈ q, t.resolves e = true := fun e he =>
          hres (detach e) (p3.mem_iff.mp (List.mem_cons_of_mem _ (List.mem_map_of_mem _ he)))
        have he0 : t.resolves (detach e0) = true :=
          hres _ (p3.mem_iff.mp (List.mem_cons_self _ _))
        cases hl : t.handlers.lookup (detach e0).name with
        | none =>
          unfold timerService.resolves at he0
          rw [hl] at he0
          simp at he0
        | some hd =>
          by_cases hr : (detach e0).isRepeat = true
          · rw [scan_fire_repeat fuel now t log e0 (detach e0) q hd h0 hdue p1 hl hr]
            have hp := (Push_spec q (rearm (detach e0) now)).2.1
            have hsp := seqs_perm_push (rearm (detach e0) now) q _ hp
            have hres2 : ∀ e ∈ heap.Push q (rearm (detach e0) now), t.resolves e = true := by
              intro e he
              rcases List.mem_cons.mp (hp.mem_iff.mp (List.mem_map_of_mem detach he))
                with e1 | e1
              · have : t.resolves (detach e) = t.resolves (detach e0) := by rw [e1]; rfl
                exact this.trans he0
              · obtain ⟨e', he', hee⟩ := List.mem_map.mp e1
                have : t.resolves (detach e') = t.resolves (detach e) := by rw [hee]
                exact this.symm.trans (hq e' he')
            obtain ⟨new, i2, i3⟩ := ih { t with events := heap.Push q (rearm (detach e0) now) }
                (log ++ [⟨hd, detach e0⟩]) hres2
            refine ⟨⟨hd, detach e0⟩ :: new, by rw [i2]; simp, ?_⟩
            intro s hs
            have hs2 : s ∈ seqs (heap.Push q (rearm (detach e0) now)) := by
              rw [hsp.mem_iff]
              exact hsq.mem_iff.mpr hs
            rcases i3 s hs2 with i4 | ⟨d, i5, i6⟩
            · exact Or.inl i4
            · exact Or.inr ⟨d, List.mem_cons_of_mem _ i5, i6⟩
          · have hr2 : (detach e0).isRepeat = false := by
              cases hb : (detach e0).isRepeat
              · rfl
              · exact absurd hb hr
            rw [scan_fire_once fuel now t log e0 (detach e0) q hd h0 hdue p1 hl hr2]
            obtain ⟨new, i2, i3⟩ := ih { t with events := q } (log ++ [⟨hd, detach e0⟩]) hq
            refine ⟨⟨hd, detach e0⟩ :: new, by rw [i2]; simp, ?_⟩
            intro s hs
            rcases List.mem_cons.mp (hsq.mem_iff.mpr hs) with e1 | e1
            · exact Or.inr ⟨⟨hd, detach e0⟩, List.mem_cons_self _ _, e1.symm⟩
            · rcases i3 s e1 with i4 | ⟨d, i5, i6⟩
              · exact Or.inl i4
              · exact Or.inr ⟨d, List.mem_cons_of_mem _ i5, i6⟩

theorem newEvent_ok_inv (t : timerService) (now interval : Int) (isRepeate : Bool)
    (handlerName : String) (args : Iface) (e : event)
    (h : t.newEvent now interval isRepeate handlerName args = Except.ok e) :
    (t.handlers.lookup e.name).isSome = true := by
  unfold timerService.newEvent at h
  by_cases h1 : interval < 0
  · rw [if_pos h1] at h
    cases h
  · rw [if_neg h1] at h
    by_cases h2 : (t.handlers.lookup handlerName).isNone = true
    · rw [if_pos h2] at h
      cases h
    · rw [if_neg h2] at h
      have he : e.name = handlerName := by
        cases h
        rfl
      rw [he]
      cases hl : t.handlers.lookup handlerName with
      | none => rw [hl] at h2; exact absurd rfl h2
      | some _ => rfl

theorem AddTimer_keeps (t : timerService) (now interval : Int) (isRepeate : Bool)
    (handlerName : String) (args : Iface)
    (h : Inv t ∧ ∀ e ∈ t.events, t.resolves e = true) :
    Inv (t.AddTimer now interval isRepeate handlerName args).2 ∧
      ∀ e ∈ (t.AddTimer now interval isRepeate handlerName args).2.events,
        (t.AddTimer now interval isRepeate handlerName args).2.resolves e = true := by
  unfold timerService.AddTimer
  cases hn : t.newEvent now interval isRepeate handlerName args with
  | error err => exact h
  | ok e0 =>
    have hres := newEvent_ok_inv t now interval isRepeate handlerName args e0 hn
    refine ⟨(doAddTimer_spec t e0 h.1).1, ?_⟩
    intro e he
    have hp := (Push_spec t.events { e0 with seq := t.sequence + 1 }).2.1
    have hmem : detach e ∈ List.map detach (heap.Push t.events { e0 with seq := t.sequence + 1 }) :=
      List.mem_map_of_mem detach he
    rcases List.mem_cons.mp (hp.mem_iff.mp hmem) with e1 | e1
    · have hname : e.name = e0.name := by
        have := congrArg (fun x : event => x.name) e1
        exact this
      show (t.handlers.lookup e.name).isSome = true
      rw [hname]
      exact hres
    · obtain ⟨e', he', hee⟩ := List.mem_map.mp e1
      have hname : e'.name = e.name := by
        have := congrArg (fun x : event => x.name) hee
        exact this
      show (t.handlers.lookup e.name).isSome = true
      rw [← hname]
      exact h.2 e' he'

theorem runTimeout_keeps (t : timerService) (fuel : Nat) (now : Int)
    (h : Inv t ∧ ∀ e ∈ t.events, t.resolves e = true) :
    (Inv (t.runTimeout fuel now).service ∧
      ∀ e ∈ (t.runTimeout fuel now).service.events,
        (t.runTimeout fuel now).service.resolves e = true) ∧
    ∀ s ∈ seqs t.events, s ∉ t.trash →
      s ∈ seqs (t.runTimeout fuel now).service.events ∨
        ∃ d ∈ (t.runTimeout fuel now).launched, d.ev.seq = s := by
  obtain ⟨⟨h1, h2, h3, h4⟩, hres⟩ := h
  obtain ⟨q1, p1, p2, p3, p4, p5, _⟩ := purge_spec t.events t.trash h2 h3
  have hmem : ∀ e ∈ q1, ∃ e' ∈ t.events, detach e' = detach e := by
    intro e he
    have hx := p2.mem_iff.mp (List.mem_map_of_mem detach he)
    obtain ⟨e', he', hee⟩ := List.mem_map.mp hx
    exact ⟨e', (List.mem_filter.mp he').1, hee⟩
  have hres1 : ∀ e ∈ q1, t.resolves e = true := by
    intro e he
    obtain ⟨e', he', hee⟩ := hmem e he
    have : t.resolves (detach e') = t.resolves (detach e) := by rw [hee]
    exact this.symm.trans (hres e' he')
  have hkeep : ∀ s ∈ seqs t.events, s ∉ t.trash → s ∈ seqs q1 := by
    intro s hs hns
    obtain ⟨e, he, hes⟩ := List.mem_map.mp hs
    have hf : e ∈ t.events.filter (fun e => decide (e.seq ∉ t.trash)) := by
      rw [List.mem_filter]
      refine ⟨he, ?_⟩
      rw [hes]
      exact decide_eq_true hns
    have := p2.mem_iff.mpr (List.mem_map_of_mem detach hf)
    rw [← seqs_map_detach]
    rw [← hes]
    show (detach e).seq ∈ _
    exact List.mem_map_of_mem event.seq this
  have hdel : t.doDelTimer = some { t with events := q1, trash := [] } := by
    unfold timerService.doDelTimer
    rw [p1]
  have hrun : t.runTimeout fuel now
      = timerService.scan fuel now { t with events := q1, trash := [] } [] := by
    unfold timerService.runTimeout
    rw [hdel]
  have hInv := (runTimeout_spec t fuel now ⟨h1, h2, h3, h4⟩).1
  rw [hrun] at hInv ⊢
  have hsub : ∀ x ∈ seqs q1, x ∈ seqs t.events := by
    intro x hx
    obtain ⟨e, he, hex⟩ := List.mem_map.mp hx
    obtain ⟨e', he', hee⟩ := hmem e he
    have hseq : e'.seq = e.seq := by
      have := congrArg (fun x : event => x.seq) hee
      exact this
    rw [← hex, ← hseq]
    exact List.mem_map_of_mem _ he'
  have hInv1 : Inv { t with events := q1, trash := [] } :=
    ⟨p5 h1, p3, p4, fun x hx => h4 x (hsub x hx)⟩
  have hh := (scan_spec fuel now { t with events := q1, trash := [] } [] hInv1).2.2.2.1
  refine ⟨⟨hInv, ?_⟩, ?_⟩
  · intro e he
    have := scan_names (fun n => (t.handlers.lookup n).isSome = true) fuel now
      { t with events := q1, trash := [] } [] hres1 e he
    show ((timerService.scan fuel now { t with events := q1, trash := [] }
      []).service.handlers.lookup e.name).isSome = true
    rw [hh]
    exact this
  · intro s hs hns
    obtain ⟨new, n1, n2⟩ := scan_no_drop fuel now { t with events := q1, trash := [] } [] hres1
    rcases n2 s (hkeep s hs hns) with a | ⟨d, hd, hds⟩
    · exact Or.inl a
    · refine Or.inr ⟨d, ?_, hds⟩
      rw [n1]
      simpa using hd

theorem Reached_keeps (t : timerService) (h : Reached t) :
    Inv t ∧ ∀ e ∈ t.events, t.resolves e = true := by
  induction h with
  | zero =>
    refine ⟨⟨heapOrdered_nil, indexOk_nil, List.nodup_nil, ?_⟩, ?_⟩
    · intro x hx; simp [seqs] at hx
    · intro e he; simp at he
  | setAccuracy t accuracy _ ih =>
    unfold timerService.SetAccuracy
    by_cases ha : accuracy ≤ 0
    · rw [if_pos ha]; exact ih
    · rw [if_neg ha]; exact ih
  | register t receiver methods _ ih =>
    have h0 : Inv t.initOnce ∧ ∀ e ∈ t.initOnce.events, t.initOnce.resolves e = true := by
      unfold timerService.initOnce
      by_cases hi : t.isInit = false
      · rw [if_pos hi]
        refine ⟨⟨heapOrdered_nil, indexOk_nil, List.nodup_nil, ?_⟩, ?_⟩
        · intro x hx; simp [seqs] at hx
        · intro e he; simp at he
      · rw [if_neg hi]; exact ih
    refine ⟨h0.1, ?_⟩
    intro e he
    exact foldl_registerMethod_keeps receiver methods _ e.name (h0.2 e he)
  | addTimer t now interval isRepeate handlerName args _ ih =>
    exact AddTimer_keeps t now interval isRepeate handlerName args ih
  | addOneshot t now now2 datatime handlerName args _ ih =>
    unfold timerService.AddOneshotTimer
    by_cases hn : now > datatime
    · rw [if_pos hn]; exact ih
    · rw [if_neg hn]
      exact AddTimer_keeps t now2 (timeSub datatime now) false handlerName args ih
  | delTimer t seq _ ih => exact ih
  | tick t fuel now _ ih => exact (runTimeout_keeps t fuel now ih).1

/-- C20 (every resident event resolves): in every state reached from the zero
value through `SetAccuracy`, `Register`, `AddTimer`, `AddOneshotTimer`,
consumed `DelTimer` requests and ticks (states inside a tick included), the
name of every resident event is a key of the handler map; so a tick never
takes the `handler == nil` branch: every event that is resident and not
pending deletion at tick entry is either still resident afterwards or was
launched. -/
theorem C20_resident_events_resolve (t : timerService) (h : Reached t) :
    (∀ e ∈ t.events, (t.handlers.lookup e.name).isSome = true) ∧
    (∀ (fuel : Nat) (now : Int), ∀ s ∈ seqs t.events, s ∉ t.trash →
      s ∈ seqs (t.runTimeout fuel now).service.events ∨
        ∃ d ∈ (t.runTimeout fuel now).launched, d.ev.seq = s) := by
  have hk := Reached_keeps t h
  exact ⟨hk.2, fun fuel now => (runTimeout_keeps t fuel now hk).2⟩

/-! ## What `Register` binds -/

theorem registerMethod_cases (receiver : String) (hs : List (String × timerHandler))
    (m : goMethod) :
    (registerMethod receiver hs m = hs ∧ ((hs.lookup m.name).isSome = true ∨ ¬ m.conforms)) ∨
    ((hs.lookup m.name) = none ∧ m.conforms ∧
      ∃ h, registerMethod receiver hs m = (m.name, h) :: hs) := by
  unfold registerMethod goMethod.conforms
  by_cases h1 : (hs.lookup m.name).isSome = true
  · rw [if_pos h1]; exact Or.inl ⟨rfl, Or.inl h1⟩
  · rw [if_neg h1]
    have hnone : hs.lookup m.name = none := by
      cases hl : hs.lookup m.name with
      | none => rfl
      | some _ => rw [hl] at h1; exact absurd rfl h1
    by_cases h2 : m.ins.length ≠ 3
    · rw [if_pos h2]; exact Or.inl ⟨rfl, Or.inr (fun hc => h2 hc.1)⟩
    · rw [if_neg h2]
      by_cases h3 : m.outs.length ≠ 1
      · rw [if_pos h3]; exact Or.inl ⟨rfl, Or.inr (fun hc => h3 hc.2.1)⟩
      · rw [if_neg h3]
        have h2' : m.ins.length = 3 := not_not.mp h2
        have h3' : m.outs.length = 1 := not_not.mp h3
        have hi1 : m.ins[1]? = some m.ins[1] := List.getElem?_eq_getElem (by omega)
        have hi2 : m.ins[2]? = some m.ins[2] := List.getElem?_eq_getElem (by omega)
        rw [hi1, hi2]
        simp only
        by_cases h4 : m.ins[1].implementsContext = false
        · rw [if_pos h4]
          refine Or.inl ⟨rfl, Or.inr ?_⟩
          rintro ⟨_, _, c, hc1, hc2⟩
          have : c = m.ins[1] := (Option.some.inj hc1).symm
          rw [this, h4] at hc2
          cases hc2
        · rw [if_neg h4]
          have h4' : m.ins[1].implementsContext = true := by
            cases hb : m.ins[1].implementsContext
            · exact absurd hb h4
            · rfl
          exact Or.inr ⟨hnone, ⟨h2', h3', m.ins[1], rfl, h4'⟩, _, rfl⟩

theorem registerMethod_first_binding (receiver : String) (hs : List (String × timerHandler))
    (m : goMethod) (n : String) (h : timerHandler) (hl : hs.lookup n = some h) :
    (registerMethod receiver hs m).lookup n = some h := by
  rcases registerMethod_cases receiver hs m with ⟨e, _⟩ | ⟨hnone, _, h2, e⟩
  · rw [e]; exact hl
  · rw [e, List.lookup_cons]
    cases hb : n == m.name
    · exact hl
    · have : n = m.name := by simpa using hb
      rw [this, hnone] at hl
      cases hl

theorem registerMethod_origin (receiver : String) (hs : List (String × timerHandler))
    (m : goMethod) (n : String)
    (h : ((registerMethod receiver hs m).lookup n).isSome = true) :
    (hs.lookup n).isSome = true ∨ (m.name = n ∧ m.conforms) := by
  rcases registerMethod_cases receiver hs m with ⟨e, _⟩ | ⟨_, hc, h2, e⟩
  · rw [e] at h; exact Or.inl h
  · rw [e, List.lookup_cons] at h
    cases hb : n == m.name
    · rw [hb] at h; exact Or.inl h
    · have : n = m.name := by simpa using hb
      exact Or.inr ⟨this.symm, hc⟩

theorem registerMethod_binds (receiver : String) (hs : List (String × timerHandler))
    (m : goMethod) (hc : m.conforms) :
    ((registerMethod receiver hs m).lookup m.name).isSome = true := by
  rcases registerMethod_cases receiver hs m with ⟨e, h1 | h1⟩ | ⟨_, _, h2, e⟩
  · rw [e]; exact h1
  · exact absurd hc h1
  · rw [e, List.lookup_cons]
    simp

/-- What `Register` does, whatever the object: it returns `nil`; a name bound
before the call keeps its binding; a name bound after the call was bound
before or is the name of a method that passes the three checks; and every
method that passes the three checks is bound afterwards, whatever the type of
its result. -/
theorem Register_spec (t : timerService) (receiver : String) (methods : List goMethod) :
    (t.Register receiver methods).1 = none ∧
    (∀ n h, t.initOnce.handlers.lookup n = some h →
      (t.Register receiver methods).2.handlers.lookup n = some h) ∧
    (∀ n, ((t.Register receiver methods).2.handlers.lookup n).isSome = true →
      (t.initOnce.handlers.lookup n).isSome = true ∨
        ∃ m ∈ methods, m.name = n ∧ m.conforms) ∧
    (∀ m ∈ methods, m.conforms →
      ((t.Register receiver methods).2.handlers.lookup m.name).isSome = true) := by
  have key : ∀ (ms : List goMethod) (hs : List (String × timerHandler)),
      (∀ n h, hs.lookup n = some h →
        (ms.foldl (registerMethod receiver) hs).lookup n = some h) ∧
      (∀ n, ((ms.foldl (registerMethod receiver) hs).lookup n).isSome = true →
        (hs.lookup n).isSome = true ∨ ∃ m ∈ ms, m.name = n ∧ m.conforms) ∧
      (∀ m ∈ ms, m.conforms →
        ((ms.foldl (registerMethod receiver) hs).lookup m.name).isSome = true) := by
    intro ms
    induction ms with
    | nil =>
      intro hs
      exact ⟨fun n h hl => hl, fun n hn => Or.inl hn, fun m hm => by simp at hm⟩
    | cons m ms ih =>
      intro hs
      obtain ⟨i1, i2, i3⟩ := ih (registerMethod receiver hs m)
      refine ⟨?_, ?_, ?_⟩
      · intro n h hl
        exact i1 n h (registerMethod_first_binding receiver hs m n h hl)
      · intro n hn
        rcases i2 n hn with a | ⟨m', hm', hn', hc'⟩
        · rcases registerMethod_origin receiver hs m n a with b | ⟨b1, b2⟩
          · exact Or.inl b
          · exact Or.inr ⟨m, List.mem_cons_self _ _, b1, b2⟩
        · exact Or.inr ⟨m', List.mem_cons_of_mem _ hm', hn', hc'⟩
      · intro m' hm' hc'
        rcases List.mem_cons.mp hm' with e | e
        · rw [e]
          exact foldl_registerMethod_keeps receiver ms _ m.name
            (registerMethod_binds receiver hs m (e ▸ hc'))
        · exact i3 m' e hc'
  obtain ⟨k1, k2, k3⟩ := key methods t.initOnce.handlers
  exact ⟨rfl, k1, k2, k3⟩

/-! ## The claims at sample data -/

/-- The sample queue is built by three pushes. -/
theorem sampleQueue_built : Built sampleQueue :=
  Built.push _ _ (Built.push _ _ (Built.push _ _ Built.empty))

/-- Witness for C1: the sample queue is heap-ordered and stays so after a push. -/
theorem C1_witness :
    heapOrdered sampleQueue ∧ heapOrdered (heap.Push sampleQueue (sampleEvent 4 5)) :=
  ⟨by decide, C1_heap_order_invariant.1 sampleQueue (sampleEvent 4 5) (by decide)⟩

/-- Witness for C2 at the sample queue. -/
theorem C2_witness :
    heapOrdered sampleQueue ∧
    ∃ out, popN sampleQueue.length sampleQueue = some (out, []) ∧
      out.length = sampleQueue.length ∧ out.Perm (sampleQueue.map detach) ∧
      out.Pairwise (fun a b => a.expire ≤ b.expire) :=
  ⟨by decide, C2_pop_all_sorted sampleQueue (by decide)⟩

/-- Witness for C3: removal at position 1 of the sample queue. -/
theorem C3_witness :
    (∃ q', heap.Remove sampleQueue ((1 : Nat) : Int) = some (detach (sampleEvent 1 30), q') ∧
      q'.length = sampleQueue.length - 1 ∧
      (detach (sampleEvent 1 30) :: q'.map detach).Perm (sampleQueue.map detach) ∧
      heapOrdered q') ∧
    (∀ is : List Int, validIndices sampleQueue.length is → removeAll sampleQueue is = some []) :=
  C3_remove_exact sampleQueue 1 { sampleEvent 1 30 with index := 1 } (by decide) (by decide)

/-- Witness for C4: the index fields of the sample queue. -/
theorem C4_witness :
    Built sampleQueue ∧
    ∀ (k : Nat) (e : event), sampleQueue[k]? = some e → e.index = (k : Int) :=
  ⟨Built.push _ _ (Built.push _ _ (Built.push _ _ Built.empty)),
    C4_index_invariant.1 sampleQueue
      (Built.push _ _ (Built.push _ _ (Built.push _ _ Built.empty)))⟩

/-- Witness for C5: two adds around a tick on the sample service. -/
theorem C5_witness :
    (timerService.Run 4 sampleService
      [msg.add (sampleEvent 0 30), msg.tick 5, msg.add (sampleEvent 0 10)]).replies.Nodup :=
  (C5_sequences_never_reused 4 sampleService
    [msg.add (sampleEvent 0 30), msg.tick 5, msg.add (sampleEvent 0 10)] rfl rfl).2.2.1

/-- Witness for C6: an accepted add on the loaded sample service. -/
theorem C6_witness :
    (sampleLoaded.AddTimer 7 1000 false "CheckTimer1" ⟨"int", 10001⟩).1 = (3 + 1, none) :=
  (C6_add_accepted sampleLoaded 7 1000 false "CheckTimer1" ⟨"int", 10001⟩ sampleHandler
    (by decide) rfl).1

/-- Witness for C7: a negative interval on the loaded sample service. -/
theorem C7_witness :
    (sampleLoaded.AddTimer 7 (-1) true "CheckTimer1" ⟨"int", 10001⟩).2 = sampleLoaded :=
  (C7_add_negative_interval sampleLoaded 7 (-1) true "CheckTimer1" ⟨"int", 10001⟩
    (by decide)).2.2

/-- Witness for C8: an unknown and a known handler name. -/
theorem C8_witness :
    (sampleLoaded.AddTimer 7 1000 true "CheckTimer3" ⟨"int", 10001⟩).2 = sampleLoaded ∧
    (sampleLoaded.AddTimer 7 1000 true "CheckTimer1" ⟨"int", 10001⟩).1.2 = none :=
  ⟨((C8_add_unknown_handler sampleLoaded 7 1000 true "CheckTimer3" ⟨"int", 10001⟩).1 rfl).2.2,
    (C8_add_unknown_handler sampleLoaded 7 1000 true "CheckTimer1" ⟨"int", 10001⟩).2 rfl
      (by decide)⟩

/-- Witness for C9: the purge pass on the loaded sample service. -/
theorem C9_witness :
    ∃ t1, sampleLoaded.doDelTimer = some t1 ∧ t1.trash = [] ∧
      (t1.events.map detach).Perm
        ((sampleLoaded.events.filter (fun e => decide (e.seq ∉ sampleLoaded.trash))).map
          detach) := by
  obtain ⟨t1, h1, h2, h3, _⟩ := C9_purge_pass sampleLoaded (by decide)
    (Built_inv sampleQueue sampleQueue_built).2
  exact ⟨t1, h1, h2, h3⟩

/-- Witness for C10: add, delete, then two ticks. -/
theorem C10_witness :
    (1 : Int) ∈ seqs (sampleService.step 0 (msg.add (sampleEvent 0 30))).service.events ∧
    ∀ d ∈ (timerService.Run 4
        (((sampleService.step 0 (msg.add (sampleEvent 0 30))).service.step 4
          (msg.del 1)).service) [msg.tick 50, msg.tick 2000]).launched,
      d.ev.seq ≠ 1 :=
  ⟨by decide,
    (C10_cancelled_never_fires (sampleService.step 0 (msg.add (sampleEvent 0 30))).service
      (Reachable.step _ _ _ (Reachable.start sampleService rfl rfl)) 1 (by decide) 4
      [msg.tick 50, msg.tick 2000]).1⟩

theorem sampleLoaded_Inv : Inv sampleLoaded :=
  ⟨by decide, (Built_inv sampleQueue sampleQueue_built).2, by decide, by decide⟩

/-- Witness for C11: the tick sampled at 6, cut after 3 iterations. -/
theorem C11_witness :
    (5 : Int) ≤ 6 ∧ (sampleZero.runTimeout 3 6).st = status.unfinished :=
  ⟨by decide, (C11_zero_interval_tick_never_ends 6 (by decide) 3).2.1⟩

/-- Witness for C12: a tick at 15 on the loaded sample service. -/
theorem C12_witness :
    Inv sampleLoaded ∧
    ∃ t1, sampleLoaded.doDelTimer = some t1 ∧ ∀ fuel, t1.events.length < fuel →
      (sampleLoaded.runTimeout fuel 15).st = status.ok ∧
      ((sampleLoaded.runTimeout fuel 15).launched.map dispatch.ev).Perm
        ((t1.events.filter (fun e => due 15 e && sampleLoaded.resolves e)).map detach) ∧
      (∀ d ∈ (sampleLoaded.runTimeout fuel 15).launched,
        sampleLoaded.handlers.lookup d.ev.name = some d.handler ∧ d.ev.expire ≤ 15) ∧
      ((sampleLoaded.runTimeout fuel 15).launched.map (fun d => d.ev.seq)).Nodup :=
  ⟨sampleLoaded_Inv, C12_dispatch_exact sampleLoaded 15 sampleLoaded_Inv (by decide)⟩

/-- Witness for C13: after a tick at 25 nothing resident is due. -/
theorem C13_witness :
    Inv sampleLoaded ∧
    ∃ t1, sampleLoaded.doDelTimer = some t1 ∧ ∀ fuel, t1.events.length < fuel →
      ∀ e ∈ (sampleLoaded.runTimeout fuel 25).service.events, 25 < e.expire := by
  refine ⟨sampleLoaded_Inv, ?_⟩
  obtain ⟨t1, h1, h2⟩ := C13_queue_after_tick sampleLoaded 25 sampleLoaded_Inv (by decide)
  exact ⟨t1, h1, fun fuel hf => (h2 fuel hf).2.2.1⟩

/-- Witness for C14: the root of the loaded sample queue fires at 15. -/
theorem C14_witness :
    sampleLoaded.events[0]? = some { sampleEvent 2 10 with index := 0 } ∧
    ∃ q, heap.Pop sampleLoaded.events = some (detach (sampleEvent 2 10), q) ∧
      (rearm (detach (sampleEvent 2 10)) 15).expire = 15 + 1000 := by
  refine ⟨by decide, ?_⟩
  obtain ⟨q, h1, _, _, _, _, _, _, _, h9, _⟩ :=
    C14_repeat_rearm sampleLoaded 15 0 [] { sampleEvent 2 10 with index := 0 } sampleHandler
      (by decide) (by decide) (by decide) (by decide)
  exact ⟨q, h1, h9⟩

/-- Witness for C15: a time before now is rejected, a later one forwarded. -/
theorem C15_witness :
    (sampleService.AddOneshotTimer 5 6 4 "CheckTimer1" ⟨"uint64", 7⟩).2 = sampleService ∧
    sampleService.AddOneshotTimer 5 6 9 "CheckTimer1" ⟨"uint64", 7⟩
      = sampleService.AddTimer 6 (9 - 5) false "CheckTimer1" ⟨"uint64", 7⟩ :=
  ⟨((C15_oneshot_guard sampleService 5 6 4 "CheckTimer1" ⟨"uint64", 7⟩).1
      (by decide)).2.2,
    (C15_oneshot_guard sampleService 5 6 9 "CheckTimer1" ⟨"uint64", 7⟩).2 (by decide)
      (by decide)⟩

/-- Witness for C16: an `int` argument for the `uint64` handler. -/
theorem C16_witness :
    (sampleService.AddTimer 0 1000 false "CheckTimer1" ⟨"int", 10001⟩).1.2 = none :=
  (C16_no_argument_check sampleService 0 1000 false "CheckTimer1" ⟨"int", 10001⟩
    sampleHandler (by decide) rfl).1

/-- Witness for C18: a zero and a positive accuracy. -/
theorem C18_witness :
    (sampleService.SetAccuracy 0).2 = sampleService ∧
    (sampleService.SetAccuracy 5).1 = none :=
  ⟨(C18_set_accuracy sampleService 0).2.1 (by decide),
    ((C18_set_accuracy sampleService 5).2.2 (by decide)).1⟩

/-- Witness for C19: three events, the first two with equal expiry. -/
theorem C19_witness :
    List.Pairwise (fun a b : event => a.expire ≤ b.expire)
      [sampleEvent 1 10, sampleEvent 2 10, sampleEvent 3 20] ∧
    ∃ q', heap.Pop (pushAll [] [sampleEvent 1 10, sampleEvent 2 10, sampleEvent 3 20])
        = some (detach (sampleEvent 1 10), q') ∧
      q'.length = [sampleEvent 2 10, sampleEvent 3 20].length :=
  ⟨by decide,
    (C19_earliest_first (sampleEvent 1 10) [sampleEvent 2 10, sampleEvent 3 20]
      (by decide)).2.1⟩

/-- Witness for C20: a state reached by `Register` and `AddTimer`. -/
theorem C20_witness :
    Reached sampleReached ∧
    ∀ e ∈ sampleReached.events, (sampleReached.handlers.lookup e.name).isSome = true :=
  ⟨Reached.addTimer _ 5 1000 true "CheckTimer1" ⟨"uint64", 7⟩
      (Reached.register _ "*exampleSvr" sampleMethods Reached.zero),
    (C20_resident_events_resolve sampleReached
      (Reached.addTimer _ 5 1000 true "CheckTimer1" ⟨"uint64", 7⟩
        (Reached.register _ "*exampleSvr" sampleMethods Reached.zero))).1⟩

end gotimer
